import Mathlib

/-!
Shallow embedding of the Steensgaard points-to analysis from this repository
(src/union_find.py, src/analyst.py, src/steensgaard.py).

Python values that flow through the analysis as union-find IDs are either
variable names (strings), numeric IDs minted by `fresh_type` (ints), or the
Python value `None` (for example the return value of `UnionFind.union`, or an
unset `lam` attribute passed to `cjoin`).  They are modelled by `PyVal`.
Python dicts are modelled by insertion-ordered association lists; reading a
missing key is a `KeyError`.  Mutation of a `TypeNode` object is rendered as
an update of the association list at the key under which the object is stored
(each `TypeNode` is stored under exactly one key: `new_type` is the only
place that stores a node, and it stores a freshly created object).
-/

/-- A Python value used as a union-find ID / dict key in the source:
a variable name, a numeric ID from `next_id`, or `None`. -/
inductive PyVal where
  | vstr (s : String)
  | vint (n : Nat)
  | vnone
deriving DecidableEq, Repr

/-- Errors the embedded Python code can raise: `KeyError` from a dict lookup,
`RecursionError` from exhausting the interpreter's recursion limit.
`arityMismatch` mirrors the `ArityMismatch` failure named by the specification;
the source never raises it (there is no such exception class in the repo),
and the embedding provably never produces it. -/
inductive PyErr where
  | keyError (k : PyVal)
  | recursionError
  | arityMismatch
deriving DecidableEq, Repr

/-- Lookup in an association list modelling a Python dict (first match). -/
def alookup {α : Type} (m : List (PyVal × α)) (k : PyVal) : Option α :=
  match m with
  | [] => none
  | (k', v) :: rest => if k' = k then some v else alookup rest k

/-- Update/insert in an association list modelling `d[k] = v`:
replace in place if present, append otherwise (Python dict insertion order). -/
def aset {α : Type} (m : List (PyVal × α)) (k : PyVal) (v : α) : List (PyVal × α) :=
  match m with
  | [] => [(k, v)]
  | (k', v') :: rest => if k' = k then (k, v) :: rest else (k', v') :: aset rest k v

/-- Membership in a Python set modelled as a list; `{x} | s` adds `x` if absent. -/
def pyInsert (x : PyVal) (s : List PyVal) : List PyVal :=
  if x ∈ s then s else x :: s

/-- Union of two Python sets modelled as lists (membership semantics). -/
def pyUnion (a b : List PyVal) : List PyVal :=
  a ++ b.filter (fun x => decide (x ∉ a))

/-- The Union-Find data structure of src/union_find.py: a single `parent` dict. -/
structure UnionFind where
  parent : List (PyVal × PyVal)
deriving DecidableEq, Repr

namespace UnionFind

/-- `add(item)`: register `item` as its own parent if not already present. -/
def add (uf : UnionFind) (item : PyVal) : UnionFind :=
  if (alookup uf.parent item).isSome then uf else ⟨uf.parent ++ [(item, item)]⟩

/-- The recursion in `find(item)`, with explicit fuel standing for the Python
interpreter's recursion limit; a missing key raises `KeyError`. -/
def findFuel (uf : UnionFind) : Nat → PyVal → Except PyErr PyVal
  | 0, _ => .error .recursionError
  | fuel + 1, item =>
    match alookup uf.parent item with
    | none => .error (.keyError item)
    | some p => if p = item then .ok item else uf.findFuel fuel p

/-- `find(item)`: follow parent links to the root.  The fuel `|parent| + 1`
suffices for every acyclic parent map (chains visit distinct keys). -/
def find (uf : UnionFind) (item : PyVal) : Except PyErr PyVal :=
  uf.findFuel (uf.parent.length + 1) item

/-- `union(item1, item2)` from src/union_find.py.  The Python function has no
`return` statement, so its value is `None` (`PyVal.vnone`); after finding the
two roots it links `parent[root2] = root1` when they differ. -/
def union (uf : UnionFind) (item1 item2 : PyVal) : Except PyErr (PyVal × UnionFind) :=
  match uf.find item1 with
  | .error e => .error e
  | .ok root1 =>
    match uf.find item2 with
    | .error e => .error e
    | .ok root2 =>
      if root1 ≠ root2 then .ok (.vnone, ⟨aset uf.parent root2 root1⟩)
      else .ok (.vnone, uf)

end UnionFind

/-- Basic evaluation check: adding two items and uniting them. -/
example :
    ((UnionFind.mk []).add (.vstr "a") |>.add (.vstr "b")).union (.vstr "a") (.vstr "b")
      = .ok (.vnone, ⟨[(.vstr "a", .vstr "a"), (.vstr "b", .vstr "a")]⟩) := by rfl

/-- A `TypeNode` from src/analyst.py.  `tau` and `lam` hold `None`
(`PyVal.vnone`) or a UF ID; `lam_args`/`lam_rets` hold UF IDs (the
`handle_fun_def` path stores the IDs returned by `get_alpha`). -/
structure TypeNode where
  uf_id : PyVal
  tau : PyVal
  lam : PyVal
  lam_args : List PyVal
  lam_rets : List PyVal
deriving DecidableEq, Repr

/-- The `is_bottom` property: both `tau` and `lam` are `None`. -/
def TypeNode.is_bottom (t : TypeNode) : Bool :=
  match t.tau, t.lam with
  | .vnone, .vnone => true
  | _, _ => false

/-- The mutable state of an `Analyst`: the union-find store, the `nodes` dict
(UF ID to `TypeNode`), the `pending` dict (UF ID to set of UF IDs), and the
`next_id` counter. -/
structure AState where
  uf : UnionFind
  nodes : List (PyVal × TypeNode)
  pending : List (PyVal × List PyVal)
  next_id : Nat
deriving DecidableEq, Repr

/-- Python's default recursion limit, used as fuel for the recursive `join`. -/
def pyRecLimit : Nat := 1000

/-- `new_type(uf_id)`: add the ID to the union-find, store a fresh bottom
`TypeNode` under it (overwriting any previous one), and reset its pending set. -/
def new_type (uf_id : PyVal) (s : AState) : AState :=
  { s with
    uf := s.uf.add uf_id
    nodes := aset s.nodes uf_id ⟨uf_id, .vnone, .vnone, [], []⟩
    pending := aset s.pending uf_id [] }

/-- `fresh_type()`: take `next_id`, increment the counter, and register the
new numeric ID via `new_type`; returns the new ID. -/
def fresh_type (s : AState) : PyVal × AState :=
  let nid := PyVal.vint s.next_id
  (nid, new_type nid { s with next_id := s.next_id + 1 })

/-- `get_tau(type_)` where `type_` is the node stored at key `k`: if its `tau`
is `None`, mint a fresh type and store its ID in `tau`; return the `tau` ID.
Also returns the node's value after the call (the state of the Python object
the caller holds a reference to). -/
def get_tau_at (k : PyVal) (s : AState) : Except PyErr (PyVal × TypeNode × AState) :=
  match alookup s.nodes k with
  | none => .error (.keyError k)
  | some nd =>
    if nd.tau = .vnone then
      let (nid, s1) := fresh_type s
      let nd' := { nd with tau := nid }
      .ok (nid, nd', { s1 with nodes := aset s1.nodes k nd' })
    else .ok (nd.tau, nd, s)

/-- `get_lam(type_)` for the node stored at key `k`, analogous to `get_tau`. -/
def get_lam_at (k : PyVal) (s : AState) : Except PyErr (PyVal × TypeNode × AState) :=
  match alookup s.nodes k with
  | none => .error (.keyError k)
  | some nd =>
    if nd.lam = .vnone then
      let (nid, s1) := fresh_type s
      let nd' := { nd with lam := nid }
      .ok (nid, nd', { s1 with nodes := aset s1.nodes k nd' })
    else .ok (nd.lam, nd, s)

/-- The field copy performed by `assign_type`: `type_e.tau = t.tau` and so on
for `lam`, `lam_args` and `lam_rets` (the `uf_id` stays). -/
def copyInto (type_e t : TypeNode) : TypeNode :=
  { type_e with tau := t.tau, lam := t.lam, lam_args := t.lam_args, lam_rets := t.lam_rets }

/-- `assign_type(e, t)`: copy the structural fields of `t` into the node
stored at `e` (reading `self.nodes[e]` first, a `KeyError` if absent). -/
def assign_type (e : PyVal) (t : TypeNode) (s : AState) : Except PyErr AState :=
  match alookup s.nodes e with
  | none => .error (.keyError e)
  | some type_e => .ok { s with nodes := aset s.nodes e (copyInto type_e t) }

/-- The loop `for x in pending: self.join(e, x)`, with the join to run passed
in as a function (the recursive `join` at the current recursion depth). -/
def runJoins (jf : PyVal → PyVal → AState → Except PyErr AState) (e : PyVal) :
    List PyVal → AState → Except PyErr AState
  | [], s => .ok s
  | x :: xs, s =>
    match jf e x s with
    | .error err => .error err
    | .ok s' => runJoins jf e xs s'

/-- `unify_tau(t1, t2)` where `t1`, `t2` are the nodes stored at keys `k1`,
`k2`; the recursive `join` is passed in as `jf`. -/
def unify_tau_with (jf : PyVal → PyVal → AState → Except PyErr AState)
    (k1 k2 : PyVal) (s0 : AState) : Except PyErr AState :=
  match get_tau_at k1 s0 with
  | .error e => .error e
  | .ok (tau1, _, s1) =>
  match get_lam_at k1 s1 with
  | .error e => .error e
  | .ok (lam1, _, s2) =>
  match get_tau_at k2 s2 with
  | .error e => .error e
  | .ok (tau2, _, s3) =>
  match get_lam_at k2 s3 with
  | .error e => .error e
  | .ok (lam2, _, s4) =>
  match (if tau1 ≠ tau2 then jf tau1 tau2 s4 else .ok s4) with
  | .error e => .error e
  | .ok s5 => if lam1 ≠ lam2 then jf lam1 lam2 s5 else .ok s5

/-- `join(e1, e2)` from src/analyst.py, with fuel for the recursion.  Note
`e = self.uf.union(e1, e2)` binds the value returned by `union`, which is
always `None`, and `assign_type(e, ...)` then looks up `self.nodes[e]`. -/
def join : Nat → PyVal → PyVal → AState → Except PyErr AState
  | 0, _, _, _ => .error .recursionError
  | fuel + 1, e1, e2, s0 =>
    match alookup s0.nodes e1 with
    | none => .error (.keyError e1)
    | some t1 =>
    match alookup s0.nodes e2 with
    | none => .error (.keyError e2)
    | some t2 =>
    match s0.uf.union e1 e2 with
    | .error err => .error err
    | .ok (e, uf1) =>
      let s1 := { s0 with uf := uf1 }
      if t1.is_bottom then
        match assign_type e t2 s1 with
        | .error err => .error err
        | .ok s2 =>
          if t2.is_bottom then
            match alookup s2.pending e1 with
            | none => .error (.keyError e1)
            | some p1 =>
            match alookup s2.pending e2 with
            | none => .error (.keyError e2)
            | some p2 => .ok { s2 with pending := aset s2.pending e (pyUnion p1 p2) }
          else
            match alookup s2.pending e1 with
            | none => .error (.keyError e1)
            | some p1 => runJoins (join fuel) e p1 s2
      else
        match assign_type e t1 s1 with
        | .error err => .error err
        | .ok s2 =>
          if t2.is_bottom then
            match alookup s2.pending e2 with
            | none => .error (.keyError e2)
            | some p2 => runJoins (join fuel) e p2 s2
          else unify_tau_with (join fuel) e1 e2 s2

/-- `unify_tau` at a given recursion depth (calls `join` with that fuel). -/
def unify_tau (fuel : Nat) (k1 k2 : PyVal) (s : AState) : Except PyErr AState :=
  unify_tau_with (join fuel) k1 k2 s

/-- `cjoin(e1, e2)`: if the node stored at the raw ID `e2` is bottom, add `e1`
to `pending[e2]` (the raw ID, not `find(e2)`); otherwise `join(e1, e2)`. -/
def cjoin (e1 e2 : PyVal) (s : AState) : Except PyErr AState :=
  match alookup s.nodes e2 with
  | none => .error (.keyError e2)
  | some t2 =>
    if t2.is_bottom then
      match alookup s.pending e2 with
      | none => .error (.keyError e2)
      | some ps => .ok { s with pending := aset s.pending e2 (pyInsert e1 ps) }
    else join pyRecLimit e1 e2 s

/-- `settype(e, t)`: `assign_type(e, t)`, then `join(e, x)` for every `x` in
`pending[e]` (which is read but never cleared by the source). -/
def settype (e : PyVal) (t : TypeNode) (s : AState) : Except PyErr AState :=
  match assign_type e t s with
  | .error err => .error err
  | .ok s1 =>
    match alookup s1.pending e with
    | none => .error (.keyError e)
    | some ps => runJoins (join pyRecLimit) e ps s1

/-- The body shared verbatim by `handle_assign(x, y)` and each iteration of
`handle_op`'s loop: read `ecr(x)`, `get_tau`, `lam`, then the same for `y`,
then `cjoin` the taus when they differ and the lams when they differ. -/
def assignStep (x y : PyVal) (s0 : AState) : Except PyErr AState :=
  match s0.uf.find x with
  | .error e => .error e
  | .ok ecr_x =>
  match get_tau_at ecr_x s0 with
  | .error e => .error e
  | .ok (tau1, ndx, s1) =>
  let lam1 := ndx.lam
  match s1.uf.find y with
  | .error e => .error e
  | .ok ecr_y =>
  match get_tau_at ecr_y s1 with
  | .error e => .error e
  | .ok (tau2, ndy, s2) =>
  let lam2 := ndy.lam
  match (if tau1 ≠ tau2 then cjoin tau1 tau2 s2 else .ok s2) with
  | .error e => .error e
  | .ok s3 => if lam1 ≠ lam2 then cjoin lam1 lam2 s3 else .ok s3

/-- `handle_assign(x, y)` for the constraint `x := y`. -/
def handle_assign (x y : PyVal) (s : AState) : Except PyErr AState :=
  assignStep x y s

/-- `handle_op(x, operands)`: run the assignment body once per operand. -/
def handle_op (x : PyVal) : List PyVal → AState → Except PyErr AState
  | [], s => .ok s
  | y :: ys, s =>
    match assignStep x y s with
    | .error e => .error e
    | .ok s' => handle_op x ys s'

/-- `handle_addr_of(x, y)` for `x := &y`: `join(get_tau(x), ecr(y))` when the
two IDs differ. -/
def handle_addr_of (x y : PyVal) (s0 : AState) : Except PyErr AState :=
  match s0.uf.find x with
  | .error e => .error e
  | .ok ecr_x =>
  match get_tau_at ecr_x s0 with
  | .error e => .error e
  | .ok (tau1, _, s1) =>
  match s1.uf.find y with
  | .error e => .error e
  | .ok tau2 => if tau1 ≠ tau2 then join pyRecLimit tau1 tau2 s1 else .ok s1

/-- `handle_deref(x, y)` for `x := *y`. -/
def handle_deref (x y : PyVal) (s0 : AState) : Except PyErr AState :=
  match s0.uf.find x with
  | .error e => .error e
  | .ok ecr_x =>
  match get_tau_at ecr_x s0 with
  | .error e => .error e
  | .ok (tau1, ndx, s1) =>
  let lam1 := ndx.lam
  match s1.uf.find y with
  | .error e => .error e
  | .ok ecr_y =>
  match get_tau_at ecr_y s1 with
  | .error e => .error e
  | .ok (tau2, _, s2) =>
  match alookup s2.nodes tau2 with
  | none => .error (.keyError tau2)
  | some type_tau2 =>
    if type_tau2.is_bottom then
      match alookup s2.nodes ecr_x with
      | none => .error (.keyError ecr_x)
      | some type_x => settype tau2 type_x s2
    else
      match get_tau_at tau2 s2 with
      | .error e => .error e
      | .ok (tau3, _, s3) =>
      let lam3 := type_tau2.lam
      match (if tau1 ≠ tau3 then cjoin tau1 tau3 s3 else .ok s3) with
      | .error e => .error e
      | .ok s4 => if lam1 ≠ lam3 then cjoin lam1 lam3 s4 else .ok s4

/-- `make_ecr_type()`: just `fresh_type()` in the current source. -/
def make_ecr_type (s : AState) : PyVal × AState :=
  fresh_type s

/-- `handle_allocate(x)` for `x := allocate()`: if the node at `get_tau(x)` is
bottom, `settype` it from a freshly minted (bottom) node. -/
def handle_allocate (x : PyVal) (s0 : AState) : Except PyErr AState :=
  match s0.uf.find x with
  | .error e => .error e
  | .ok ecr_x =>
  match get_tau_at ecr_x s0 with
  | .error e => .error e
  | .ok (tau, _, s1) =>
  match alookup s1.nodes tau with
  | none => .error (.keyError tau)
  | some type_tau =>
    if type_tau.is_bottom then
      let (nid, s2) := make_ecr_type s1
      match alookup s2.nodes nid with
      | none => .error (.keyError nid)
      | some fresh_nd => settype tau fresh_nd s2
    else .ok s1

/-- `handle_store(x, y)` for `*x := y`. -/
def handle_store (x y : PyVal) (s0 : AState) : Except PyErr AState :=
  match s0.uf.find x with
  | .error e => .error e
  | .ok ecr_x =>
  match get_tau_at ecr_x s0 with
  | .error e => .error e
  | .ok (tau1, _, s1) =>
  match s1.uf.find y with
  | .error e => .error e
  | .ok ecr_y =>
  match get_tau_at ecr_y s1 with
  | .error e => .error e
  | .ok (tau2, ndy, s2) =>
  let lam2 := ndy.lam
  match alookup s2.nodes tau1 with
  | none => .error (.keyError tau1)
  | some type_tau1 =>
    if type_tau1.is_bottom then
      match alookup s2.nodes ecr_y with
      | none => .error (.keyError ecr_y)
      | some type_y => settype tau1 type_y s2
    else
      match get_tau_at tau1 s2 with
      | .error e => .error e
      | .ok (tau3, _, s3) =>
      let lam3 := type_tau1.lam
      match (if tau2 ≠ tau3 then cjoin tau3 tau2 s3 else .ok s3) with
      | .error e => .error e
      | .ok s4 => if lam2 ≠ lam3 then cjoin lam3 lam2 s4 else .ok s4

/-- A constraint record as produced by the SIL frontend and consumed by the
dispatcher in src/steensgaard.py (only the fields the dispatcher reads). -/
structure Constraint where
  ctype : String
  lhs : String
  rhs : String
  operand_variables : List String
deriving DecidableEq, Repr

/-- The `match c["type"]` dispatcher inside `run_steensgaard_analysis`
(src/steensgaard.py, lines 170-190).  Its cases are `assign`, `addr_of`,
`deref`, `op`, `allocate` and `store`; every other tag (including `fun_def`
and `fun_app`) falls to the default branch, which only prints
"Unrecognized constraint." and leaves the state unchanged. -/
def dispatch (c : Constraint) (s : AState) : Except PyErr AState :=
  if c.ctype = "assign" then handle_assign (.vstr c.lhs) (.vstr c.rhs) s
  else if c.ctype = "addr_of" then handle_addr_of (.vstr c.lhs) (.vstr c.rhs) s
  else if c.ctype = "deref" then handle_deref (.vstr c.lhs) (.vstr c.rhs) s
  else if c.ctype = "op" then handle_op (.vstr c.lhs) (c.operand_variables.map .vstr) s
  else if c.ctype = "allocate" then handle_allocate (.vstr c.lhs) s
  else if c.ctype = "store" then handle_store (.vstr c.lhs) (.vstr c.rhs) s
  else .ok s

/-- The constraint loop of `run_steensgaard_analysis`: process each constraint
in order; a raised exception aborts the whole run. -/
def runConstraints : List Constraint → AState → Except PyErr AState
  | [], s => .ok s
  | c :: cs, s =>
    match dispatch c s with
    | .error e => .error e
    | .ok s' => runConstraints cs s'

/-- Pre-registration: `analyst.new_type(v)` for every program variable,
starting from a freshly constructed `Analyst`. -/
def initState (vs : List String) : AState :=
  vs.foldl (fun s v => new_type (.vstr v) s) ⟨⟨[]⟩, [], [], 0⟩

/-- `run_steensgaard_analysis` restricted to its analysis effect: register the
variables, then process the constraints. -/
def run_steensgaard_analysis (vs : List String) (cs : List Constraint) :
    Except PyErr AState :=
  runConstraints cs (initState vs)

/-- The equivalence "same ECR" induced on two variable names by a finished run,
as the query layer reads it: `none` when the analysis raises or a name is
unregistered, otherwise whether the two `find` results coincide. -/
def finalSameECR (vs : List String) (cs : List Constraint) (a b : String) : Option Bool :=
  match run_steensgaard_analysis vs cs with
  | .error _ => none
  | .ok s =>
    match s.uf.find (.vstr a), s.uf.find (.vstr b) with
    | .ok ra, .ok rb => some (decide (ra = rb))
    | _, _ => none

/-! ### Association-list lemmas -/

theorem alookup_aset_self {α : Type} (m : List (PyVal × α)) (k : PyVal) (v : α) :
    alookup (aset m k v) k = some v := by
  induction m with
  | nil => simp [aset, alookup]
  | cons hd tl ih =>
    obtain ⟨k', v'⟩ := hd
    by_cases h : k' = k
    · subst h
      simp [aset, alookup]
    · simp [aset, alookup, h, ih]

theorem alookup_aset_ne {α : Type} (m : List (PyVal × α)) (k k' : PyVal) (v : α)
    (h : k ≠ k') : alookup (aset m k v) k' = alookup m k' := by
  induction m with
  | nil => simp [aset, alookup, h]
  | cons hd tl ih =>
    obtain ⟨k0, v0⟩ := hd
    by_cases h0 : k0 = k
    · subst h0
      simp [aset, alookup, h]
    · simp only [aset, if_neg h0, alookup]
      by_cases h1 : k0 = k'
      · simp [h1]
      · simp [h1, ih]

theorem alookup_append_single {α : Type} (m : List (PyVal × α)) (x k : PyVal) (v : α) :
    alookup (m ++ [(x, v)]) k
      = match alookup m k with
        | some w => some w
        | none => if x = k then some v else none := by
  induction m with
  | nil => simp [alookup]
  | cons hd tl ih =>
    obtain ⟨k0, v0⟩ := hd
    by_cases h0 : k0 = k
    · simp [alookup, h0]
    · simp [alookup, h0, ih]


/-! ### Concrete inputs used by individual claims -/

/-- A two-item union-find store `{a, b}`, as in the sanity test of
src/union_find.py. -/
def ufAB : UnionFind :=
  ((UnionFind.mk []).add (.vstr "a")).add (.vstr "b")

/-- Scenario A of the specification: `p := &x; q := &y; p := q;`. -/
def scenarioA : List Constraint :=
  [⟨"addr_of", "p", "x", []⟩, ⟨"addr_of", "q", "y", []⟩, ⟨"assign", "p", "q", []⟩]

/-- The constraint `a := b`. -/
def cAssignAB : Constraint := ⟨"assign", "a", "b", []⟩

/-- The constraint `b := allocate()` (the dispatcher reads only `lhs`). -/
def cAllocB : Constraint := ⟨"allocate", "b", "", []⟩

/-! ### C1 -/

/-- C1: `UnionFind.union` does not return the representative of the merged
class: the Python function has no `return` statement, so `union(a, b)` and
the no-op `union(a, a)` both return `None`, never a valid ID, while
`find(a)` returns `'a'`.  `Analyst.join` nevertheless binds this return value
(`e = self.uf.union(e1, e2)`) and uses it as a key into the node arena. -/
theorem union_returns_none_not_representative :
    ufAB.union (.vstr "a") (.vstr "b")
        = .ok (.vnone, ⟨[(.vstr "a", .vstr "a"), (.vstr "b", .vstr "a")]⟩)
      ∧ ufAB.union (.vstr "a") (.vstr "a") = .ok (.vnone, ufAB)
      ∧ ufAB.find (.vstr "a") = .ok (.vstr "a")
      ∧ PyVal.vnone ≠ PyVal.vstr "a" :=
  ⟨rfl, rfl, rfl, by decide⟩

/-! ### C2 -/

/-- C2: Scenario A does not complete.  Handling the very first constraint
`p := &x` reaches `join(tau1, find(x))`, where `join` binds the `None`
returned by `union` and looks it up in `nodes`, so the whole analysis aborts
with a `KeyError` on `None` instead of producing the expected partition. -/
theorem scenarioA_raises_keyerror :
    run_steensgaard_analysis ["p", "q", "x", "y"] scenarioA
      = .error (.keyError .vnone) := by rfl

/-! ### C6 -/

/-- C6: the dispatcher of `run_steensgaard_analysis` handles only the six
kinds assign, addr_of, deref, op, allocate and store; the recognised kinds
`fun_def` and `fun_app` (produced by the frontend, with handlers present but
unreached in src/analyst.py) fall through to the default branch, which only
prints "Unrecognized constraint." and leaves the state unchanged. -/
theorem dispatch_ignores_fun_constraints :
    ∀ (s : AState) (lhs rhs : String) (ops : List String),
      dispatch ⟨"fun_def", lhs, rhs, ops⟩ s = .ok s
      ∧ dispatch ⟨"fun_app", lhs, rhs, ops⟩ s = .ok s
      ∧ dispatch ⟨"assign", lhs, rhs, ops⟩ s = handle_assign (.vstr lhs) (.vstr rhs) s
      ∧ dispatch ⟨"addr_of", lhs, rhs, ops⟩ s = handle_addr_of (.vstr lhs) (.vstr rhs) s
      ∧ dispatch ⟨"deref", lhs, rhs, ops⟩ s = handle_deref (.vstr lhs) (.vstr rhs) s
      ∧ dispatch ⟨"op", lhs, rhs, ops⟩ s = handle_op (.vstr lhs) (ops.map .vstr) s
      ∧ dispatch ⟨"allocate", lhs, rhs, ops⟩ s = handle_allocate (.vstr lhs) s
      ∧ dispatch ⟨"store", lhs, rhs, ops⟩ s = handle_store (.vstr lhs) (.vstr rhs) s :=
  fun _ _ _ _ => ⟨rfl, rfl, rfl, rfl, rfl, rfl, rfl, rfl⟩

/-! ### C7 -/

/-- C7: order independence fails.  The lists `[a := b; b := allocate()]` and
`[b := allocate(); a := b]` are permutations of each other, yet the first
aborts with an exception (draining the pending set calls `join`, which uses
the `None` returned by `union` as a node key), while the second completes;
so the two runs do not yield the same final equivalence relation. -/
theorem permutation_changes_outcome :
    List.Perm [cAssignAB, cAllocB] [cAllocB, cAssignAB]
      ∧ finalSameECR ["a", "b"] [cAssignAB, cAllocB] "a" "b" = none
      ∧ finalSameECR ["a", "b"] [cAllocB, cAssignAB] "a" "b" = some false :=
  ⟨List.Perm.swap cAllocB cAssignAB [], rfl, rfl⟩

/-! ### C3 -/

/-- A bottom `TypeNode` stored under key `k`. -/
def bottomNode (k : PyVal) : TypeNode := ⟨k, .vnone, .vnone, [], []⟩

/-- A state holding two non-bottom function records whose `lam_args` have
lengths 2 and 1 (Scenario F after both lambdas have been registered). -/
def lamArityState : AState :=
  { uf := ⟨[(.vint 10, .vint 10), (.vint 11, .vint 11)]⟩
    nodes := [(.vint 10, ⟨.vint 10, .vnone, .vint 20, [.vint 1, .vint 2], [.vint 3]⟩),
              (.vint 11, ⟨.vint 11, .vnone, .vint 21, [.vint 4], [.vint 5]⟩)]
    pending := [(.vint 10, []), (.vint 11, [])]
    next_id := 30 }

/-- C3 counterexample: joining two non-bottom records whose lambda argument
lists have different lengths (2 versus 1) does not fail with `ArityMismatch`.
The arity check of `unify_lam` is commented out in the source and `unify_lam`
itself is never invoked ( `join` only calls `unify_tau`); the call instead
dies earlier, with a `KeyError` on the `None` that `union` returned. -/
theorem join_arity_mismatch_no_arity_error :
    ((alookup lamArityState.nodes (.vint 10)).map TypeNode.is_bottom = some false)
    ∧ ((alookup lamArityState.nodes (.vint 11)).map TypeNode.is_bottom = some false)
    ∧ ((alookup lamArityState.nodes (.vint 10)).map (fun nd => nd.lam_args.length) = some 2)
    ∧ ((alookup lamArityState.nodes (.vint 11)).map (fun nd => nd.lam_args.length) = some 1)
    ∧ join pyRecLimit (.vint 10) (.vint 11) lamArityState = .error (.keyError .vnone)
    ∧ PyErr.keyError .vnone ≠ PyErr.arityMismatch :=
  ⟨rfl, rfl, rfl, rfl, rfl, by decide⟩

/-! ### C5 -/

/-- A state in which the ID `vint 0` is not its own representative:
`find(vint 0) = vint 1`, and both records are bottom. -/
def staleEcrState : AState :=
  { uf := ⟨[(.vint 0, .vint 1), (.vint 1, .vint 1)]⟩
    nodes := [(.vint 0, bottomNode (.vint 0)), (.vint 1, bottomNode (.vint 1))]
    pending := [(.vint 0, []), (.vint 1, [])]
    next_id := 2 }

/-- C5 counterexample: calling `cjoin(e1, e2)` with `e2 = vint 0`, whose
representative `find(e2) = vint 1` has a bottom record, does not add `e1` to
`pending(find(e2))`: the source consults `nodes[e2]` and keys the pending set
by the raw ID `e2`, so `pending(vint 1)` stays empty and `e1` lands in
`pending(vint 0)`. -/
theorem cjoin_keys_pending_by_raw_id :
    staleEcrState.uf.find (.vint 0) = .ok (.vint 1)
    ∧ ((alookup staleEcrState.nodes (.vint 1)).map TypeNode.is_bottom = some true)
    ∧ cjoin (.vint 9) (.vint 0) staleEcrState
        = .ok { staleEcrState with
                  pending := [(.vint 0, [.vint 9]), (.vint 1, [])] }
    ∧ (alookup [((PyVal.vint 0 : PyVal), [PyVal.vint 9]), (.vint 1, ([] : List PyVal))]
         (.vint 1) = some [])
    ∧ (alookup [((PyVal.vint 0 : PyVal), [PyVal.vint 9]), (.vint 1, ([] : List PyVal))]
         (.vint 0) = some [.vint 9]) :=
  ⟨rfl, rfl, rfl, rfl, rfl⟩

/-- C5 amended: what `cjoin(e1, e2)` actually does.  It reads the record and
pending set stored under the raw ID `e2` (not under `find(e2)`): if that
record is bottom it adds `e1` to `pending[e2]` and changes nothing else, and
if it is non-bottom it behaves exactly as `join(e1, e2)`. -/
theorem cjoin_spec (s : AState) (e1 e2 : PyVal) (t2 : TypeNode) (ps : List PyVal)
    (hn : alookup s.nodes e2 = some t2) (hp : alookup s.pending e2 = some ps) :
    (t2.is_bottom = true →
      cjoin e1 e2 s = .ok { s with pending := aset s.pending e2 (pyInsert e1 ps) })
    ∧ (t2.is_bottom = false → cjoin e1 e2 s = join pyRecLimit e1 e2 s) := by
  constructor
  · intro hb
    simp [cjoin, hn, hp, hb]
  · intro hb
    simp [cjoin, hn, hp, hb]

/-- C5 witness: the amended description applied to a concrete bottom target. -/
theorem cjoin_spec_witness :
    cjoin (.vint 9) (.vint 0) staleEcrState
      = .ok { staleEcrState with
                pending := aset staleEcrState.pending (.vint 0)
                  (pyInsert (.vint 9) []) } :=
  (cjoin_spec staleEcrState (.vint 9) (.vint 0) (bottomNode (.vint 0)) []
    (by rfl) (by rfl)).1 (by rfl)

/-! ### C9 -/

/-- C9: calling `new_type(id)` on an already-registered ID is not a no-op:
the union-find store is unchanged (`add` is idempotent), but the node arena
entry is overwritten with a fresh bottom `TypeNode` and the pending set is
reset to empty, discarding whatever was there. -/
theorem new_type_again_overwrites (s : AState) (id : PyVal)
    (h : (alookup s.uf.parent id).isSome = true) :
    (new_type id s).uf = s.uf
    ∧ alookup (new_type id s).nodes id = some ⟨id, .vnone, .vnone, [], []⟩
    ∧ alookup (new_type id s).pending id = some []
    ∧ (new_type id s).next_id = s.next_id := by
  refine ⟨?_, ?_, ?_, rfl⟩
  · simp [new_type, UnionFind.add, h]
  · simp [new_type, alookup_aset_self]
  · simp [new_type, alookup_aset_self]

/-- A state where variable `a` is registered with a non-bottom record and a
non-empty pending set. -/
def staleVarState : AState :=
  { uf := ⟨[(.vstr "a", .vstr "a"), (.vint 0, .vint 0)]⟩
    nodes := [(.vstr "a", ⟨.vstr "a", .vint 0, .vnone, [], []⟩),
              (.vint 0, bottomNode (.vint 0))]
    pending := [(.vstr "a", [.vint 0]), (.vint 0, [])]
    next_id := 1 }

/-- C9 witness: re-registering the already-registered variable `a` resets its
(previously non-bottom) record and pending set while leaving the store alone. -/
theorem new_type_again_overwrites_witness :
    (new_type (.vstr "a") staleVarState).uf = staleVarState.uf
    ∧ alookup (new_type (.vstr "a") staleVarState).nodes (.vstr "a")
        = some ⟨.vstr "a", .vnone, .vnone, [], []⟩
    ∧ alookup (new_type (.vstr "a") staleVarState).pending (.vstr "a") = some []
    ∧ (new_type (.vstr "a") staleVarState).next_id = staleVarState.next_id :=
  new_type_again_overwrites staleVarState (.vstr "a") (by rfl)

/-! ### Well-formedness of reachable analyst states

The dispatcher only ever registers string-named variables, and `fresh_type`
only mints numeric IDs below `next_id`; `None` is never a key.  The following
invariants hold for the initial state and are preserved by every constraint
that completes without an exception. -/

/-- Keys that can occur in a reachable state with counter `nid`. -/
def keyOK (nid : Nat) : PyVal → Prop
  | .vstr _ => True
  | .vint i => i < nid
  | .vnone => False

/-- Core store invariants: the three dicts have the same keys, every parent
entry is a self-loop (no completed run ever performs a union, since `join`
always raises first), and every key is a variable name or a minted ID. -/
structure WFcore (s : AState) : Prop where
  domP : ∀ k, (alookup s.nodes k).isSome ↔ (alookup s.uf.parent k).isSome
  domQ : ∀ k, (alookup s.nodes k).isSome ↔ (alookup s.pending k).isSome
  pid : ∀ k v, alookup s.uf.parent k = some v → v = k
  keys : ∀ k, (alookup s.nodes k).isSome → keyOK s.next_id k

/-- Record invariants: no completed run ever sets a `lam` or a lambda slot
list (`get_lam` is only reached from `unify_tau` and the fun handlers, none
of which the dispatcher can complete), and every stored `tau` is a minted ID
present in the arena. -/
structure WFrec (s : AState) : Prop where
  recOK : ∀ k nd, alookup s.nodes k = some nd →
    nd.lam = .vnone ∧ nd.lam_args = [] ∧ nd.lam_rets = []
    ∧ (nd.tau = .vnone ∨ ∃ i, nd.tau = .vint i ∧ (alookup s.nodes (.vint i)).isSome)

/-- Pending invariants: a non-empty pending set only ever hangs off a minted
cell whose record is still bottom. -/
structure WFpend (s : AState) : Prop where
  pendOK : ∀ k ps, alookup s.pending k = some ps → ps ≠ [] →
    (∃ i, k = .vint i) ∧ ∃ nd, alookup s.nodes k = some nd ∧ nd.is_bottom = true

/-- All invariants of a reachable analyst state. -/
def WF (s : AState) : Prop := WFcore s ∧ WFrec s ∧ WFpend s

theorem keyOK_mono {n m : Nat} (h : n ≤ m) : ∀ k, keyOK n k → keyOK m k := by
  intro k hk
  cases k with
  | vstr v => trivial
  | vint i => exact lt_of_lt_of_le hk h
  | vnone => exact hk.elim

/-- In a well-formed state, `None` is not a key of the node arena. -/
theorem WF_nodes_vnone {s : AState} (w : WFcore s) : alookup s.nodes .vnone = none := by
  cases h : alookup s.nodes .vnone with
  | none => rfl
  | some nd =>
    have : keyOK s.next_id .vnone := w.keys .vnone (by simp [h])
    exact this.elim

theorem alookup_append_some {α : Type} {m : List (PyVal × α)} {k : PyVal} {v : α}
    (h : alookup m k = some v) (x : PyVal) (w : α) :
    alookup (m ++ [(x, w)]) k = some v := by
  induction m with
  | nil => simp [alookup] at h
  | cons hd tl ih =>
    obtain ⟨k0, v0⟩ := hd
    by_cases h0 : k0 = k
    · simp [alookup, h0] at h ⊢
      exact h
    · simp only [alookup, if_neg h0] at h
      simp only [List.cons_append, alookup, if_neg h0]
      exact ih h

theorem alookup_append_none {α : Type} {m : List (PyVal × α)} {k : PyVal}
    (h : alookup m k = none) (x : PyVal) (w : α) :
    alookup (m ++ [(x, w)]) k = if x = k then some w else none := by
  induction m with
  | nil => simp [alookup]
  | cons hd tl ih =>
    obtain ⟨k0, v0⟩ := hd
    by_cases h0 : k0 = k
    · simp [alookup, h0] at h
    · simp only [alookup, if_neg h0] at h
      simp only [List.cons_append, alookup, if_neg h0]
      exact ih h

/-! ### Union-find lemmas -/

theorem UnionFind.add_lookup_some (uf : UnionFind) (x : PyVal) {k v : PyVal}
    (h : alookup uf.parent k = some v) : alookup (uf.add x).parent k = some v := by
  unfold UnionFind.add
  by_cases hx : (alookup uf.parent x).isSome
  · simp [hx, h]
  · simp only [hx, if_neg, Bool.false_eq_true, not_false_eq_true]
    exact alookup_append_some h x x

theorem UnionFind.add_lookup_none (uf : UnionFind) (x : PyVal) {k : PyVal}
    (h : alookup uf.parent k = none) :
    alookup (uf.add x).parent k = if x = k then some x else none := by
  unfold UnionFind.add
  by_cases hx : (alookup uf.parent x).isSome
  · simp only [hx, if_pos]
    by_cases hxk : x = k
    · subst hxk
      rw [h] at hx
      simp at hx
    · simp [hxk, h]
  · simp only [hx, if_neg, Bool.false_eq_true, not_false_eq_true]
    exact alookup_append_none h x x

theorem UnionFind.add_dom (uf : UnionFind) (x k : PyVal) :
    (alookup (uf.add x).parent k).isSome ↔ (k = x ∨ (alookup uf.parent k).isSome) := by
  cases hk : alookup uf.parent k with
  | some v =>
    rw [uf.add_lookup_some x hk]
    simp
  | none =>
    rw [uf.add_lookup_none x hk]
    by_cases hxk : x = k
    · subst hxk
      simp
    · rw [if_neg hxk]
      constructor
      · intro h
        simp at h
      · intro h
        rcases h with h | h
        · exact absurd h.symm hxk
        · simp at h

theorem UnionFind.add_pid (uf : UnionFind) (x : PyVal)
    (h : ∀ k v, alookup uf.parent k = some v → v = k) :
    ∀ k v, alookup (uf.add x).parent k = some v → v = k := by
  intro k v hv
  cases hk : alookup uf.parent k with
  | some w =>
    rw [uf.add_lookup_some x hk] at hv
    injection hv with hv2
    subst hv2
    exact h k w hk
  | none =>
    rw [uf.add_lookup_none x hk] at hv
    by_cases hxk : x = k
    · subst hxk
      simp at hv
      exact hv.symm
    · simp [hxk] at hv

/-- With a self-loop at `k`, `find` returns `k`. -/
theorem UnionFind.find_self (uf : UnionFind) (k : PyVal)
    (h : alookup uf.parent k = some k) : uf.find k = .ok k := by
  unfold UnionFind.find UnionFind.findFuel
  simp [h]

/-- Inversion for `find` when every parent entry is a self-loop. -/
theorem UnionFind.find_ok_pid (uf : UnionFind)
    (hp : ∀ k v, alookup uf.parent k = some v → v = k)
    {k r : PyVal} (h : uf.find k = .ok r) :
    r = k ∧ alookup uf.parent k = some k := by
  cases hk : alookup uf.parent k with
  | none =>
    unfold UnionFind.find UnionFind.findFuel at h
    rw [hk] at h
    exact absurd h (by simp)
  | some v =>
    have hv := hp k v hk
    subst hv
    constructor
    · unfold UnionFind.find UnionFind.findFuel at h
      rw [hk] at h
      simp at h
      first
      | exact h
      | exact h.symm
    · exact rfl

/-- Every successful `union` returns `None` as its value. -/
theorem UnionFind.union_ok_vnone (uf : UnionFind) {a b v : PyVal} {uf' : UnionFind}
    (h : uf.union a b = .ok (v, uf')) : v = .vnone := by
  cases ha : uf.find a with
  | error e =>
    simp [UnionFind.union, ha] at h
  | ok ra =>
    cases hb : uf.find b with
    | error e =>
      simp [UnionFind.union, ha, hb] at h
    | ok rb =>
      by_cases hr : ra = rb
      · simp [UnionFind.union, ha, hb, hr] at h
        first
        | exact h.1
        | exact h.1.symm
      · simp [UnionFind.union, ha, hb, hr] at h
        first
        | exact h.1
        | exact h.1.symm

/-! ### `join` always raises

`join` binds `e = self.uf.union(e1, e2)`, which is `None`, and then calls
`assign_type(e, ...)`, which reads `self.nodes[None]`.  In any state whose
node arena has no `None` key, every call to `join` therefore raises. -/

theorem join_errors (s : AState) (hnone : alookup s.nodes .vnone = none)
    (fuel : Nat) (e1 e2 : PyVal) : ∃ err, join fuel e1 e2 s = .error err := by
  cases fuel with
  | zero => exact ⟨.recursionError, rfl⟩
  | succ f =>
    cases h1 : alookup s.nodes e1 with
    | none =>
      refine ⟨.keyError e1, ?_⟩
      simp [join, h1]
    | some t1 =>
      cases h2 : alookup s.nodes e2 with
      | none =>
        refine ⟨.keyError e2, ?_⟩
        simp [join, h1, h2]
      | some t2 =>
        cases hu : s.uf.union e1 e2 with
        | error err =>
          refine ⟨err, ?_⟩
          simp [join, h1, h2, hu]
        | ok p =>
          obtain ⟨v, uf1⟩ := p
          have hv : v = .vnone := s.uf.union_ok_vnone hu
          subst hv
          refine ⟨.keyError .vnone, ?_⟩
          by_cases hb : t1.is_bottom = true
          · simp [join, h1, h2, hu, hb, assign_type, hnone]
          · simp [join, h1, h2, hu, hb, assign_type, hnone]

/-- A pending-drain loop that completes did nothing: the list was empty. -/
theorem runJoins_ok_inv (s : AState) (hnone : alookup s.nodes .vnone = none)
    (fuel : Nat) (e : PyVal) (xs : List PyVal) (s' : AState)
    (h : runJoins (join fuel) e xs s = .ok s') : xs = [] ∧ s' = s := by
  cases xs with
  | nil =>
    simp [runJoins] at h
    exact ⟨rfl, h.symm⟩
  | cons x rest =>
    obtain ⟨err, herr⟩ := join_errors s hnone fuel e x
    simp [runJoins, herr] at h

/-- Inversion for a completed `cjoin`: it took the bottom branch and only
extended `pending[e2]`. -/
theorem cjoin_ok_inv (s : AState) (hnone : alookup s.nodes .vnone = none)
    (e1 e2 : PyVal) (s' : AState) (h : cjoin e1 e2 s = .ok s') :
    ∃ t2 ps, alookup s.nodes e2 = some t2 ∧ t2.is_bottom = true
      ∧ alookup s.pending e2 = some ps
      ∧ s' = { s with pending := aset s.pending e2 (pyInsert e1 ps) } := by
  cases h2 : alookup s.nodes e2 with
  | none => simp [cjoin, h2] at h
  | some t2 =>
    by_cases hb : t2.is_bottom = true
    · cases hp : alookup s.pending e2 with
      | none => simp [cjoin, h2, hb, hp] at h
      | some ps =>
        refine ⟨t2, ps, rfl, hb, rfl, ?_⟩
        simp [cjoin, h2, hb, hp] at h
        exact h.symm
    · obtain ⟨err, herr⟩ := join_errors s hnone pyRecLimit e1 e2
      simp [cjoin, h2, hb, herr] at h

/-- Inversion for a completed `settype`: the pending set of the target was
already empty, and the result is just the `assign_type` field copy. -/
theorem settype_ok_inv (s : AState) (hnone : alookup s.nodes .vnone = none)
    (e : PyVal) (t : TypeNode) (s' : AState) (h : settype e t s = .ok s') :
    ∃ nd, alookup s.nodes e = some nd
      ∧ alookup s.pending e = some []
      ∧ s' = { s with nodes := aset s.nodes e (copyInto nd t) } := by
  cases hn : alookup s.nodes e with
  | none => simp [settype, assign_type, hn] at h
  | some nd =>
    have he : e ≠ PyVal.vnone := by
      intro he
      rw [he, hnone] at hn
      cases hn
    cases hp : alookup s.pending e with
    | none => simp [settype, assign_type, hn, hp] at h
    | some ps =>
      have hred : settype e t s
          = runJoins (join pyRecLimit) e ps
              { s with nodes := aset s.nodes e (copyInto nd t) } := by
        simp [settype, assign_type, hn, hp]
      rw [hred] at h
      have hnone1 : alookup (aset s.nodes e (copyInto nd t)) .vnone = none := by
        rw [alookup_aset_ne _ _ _ _ he]
        exact hnone
      obtain ⟨hps, hs⟩ := runJoins_ok_inv _ hnone1 pyRecLimit e ps s' h
      subst hps
      exact ⟨nd, rfl, rfl, hs⟩

/-! ### `get_tau` equations and invariant preservation -/

/-- The state after `get_tau` mints a fresh pointee for the node at `k`:
`fresh_type` registers `vint next_id` everywhere, then the node at `k` gets
its `tau` set to the new ID. -/
def mintTauState (s : AState) (k : PyVal) (nd : TypeNode) : AState :=
  { uf := s.uf.add (.vint s.next_id)
    nodes := aset (aset s.nodes (.vint s.next_id) (bottomNode (.vint s.next_id))) k
      ({ nd with tau := .vint s.next_id })
    pending := aset s.pending (.vint s.next_id) []
    next_id := s.next_id + 1 }

theorem get_tau_at_eq_set {s : AState} {k : PyVal} {nd : TypeNode}
    (h : alookup s.nodes k = some nd) (ht : ¬ nd.tau = .vnone) :
    get_tau_at k s = .ok (nd.tau, nd, s) := by
  simp [get_tau_at, h, ht]

theorem get_tau_at_eq_unset {s : AState} {k : PyVal} {nd : TypeNode}
    (h : alookup s.nodes k = some nd) (ht : nd.tau = .vnone) :
    get_tau_at k s
      = .ok (.vint s.next_id, { nd with tau := .vint s.next_id }, mintTauState s k nd) := by
  simp [get_tau_at, h, ht, fresh_type, new_type, mintTauState, bottomNode]

theorem WFcore.parent_self {s : AState} (w : WFcore s) {k : PyVal}
    (h : (alookup s.nodes k).isSome) : alookup s.uf.parent k = some k := by
  obtain ⟨v, hv⟩ := Option.isSome_iff_exists.mp ((w.domP k).mp h)
  rw [w.pid k v hv] at hv
  exact hv

theorem WFcore.find_eq {s : AState} (w : WFcore s) {k : PyVal}
    (h : (alookup s.nodes k).isSome) : s.uf.find k = .ok k :=
  s.uf.find_self k (w.parent_self h)

/-- The fresh ID `vint next_id` is never already a key of the arena. -/
theorem WFcore.fresh_not_mem {s : AState} (w : WFcore s) :
    alookup s.nodes (.vint s.next_id) = none := by
  cases h : alookup s.nodes (.vint s.next_id) with
  | none => rfl
  | some nd =>
    have : keyOK s.next_id (.vint s.next_id) := w.keys _ (by simp [h])
    exact absurd this (by simp [keyOK])

/-- Invariant preservation for the minting branch of `get_tau`. -/
theorem WF_mintTau {s : AState} (w : WF s) {k : PyVal} {nd : TypeNode}
    (h : alookup s.nodes k = some nd) (ht : nd.tau = .vnone)
    (hpe : ∀ ps, alookup s.pending k = some ps → ps = []) :
    WF (mintTauState s k nd) := by
  obtain ⟨wc, wr, wp⟩ := w
  have hfresh : alookup s.nodes (.vint s.next_id) = none := wc.fresh_not_mem
  have hkf : k ≠ .vint s.next_id := by
    intro hk
    rw [hk, hfresh] at h
    cases h
  refine ⟨⟨?_, ?_, ?_, ?_⟩, ⟨?_⟩, ⟨?_⟩⟩ <;> simp only [mintTauState]
  · -- domP
    intro j
    by_cases hjk : j = k
    · rw [hjk, alookup_aset_self,
        UnionFind.add_lookup_some _ _ (wc.parent_self (by simp [h]))]
      simp
    · by_cases hjf : j = .vint s.next_id
      · rw [hjf]
        rw [alookup_aset_ne _ _ _ _ hkf, alookup_aset_self, UnionFind.add_dom]
        simp
      · rw [alookup_aset_ne _ _ _ _ (fun hh => hjk hh.symm)]
        rw [alookup_aset_ne _ _ _ _ (fun hh => hjf hh.symm)]
        rw [UnionFind.add_dom]
        simp only [hjf, false_or]
        exact wc.domP j
  · -- domQ
    intro j
    by_cases hjk : j = k
    · rw [hjk]
      rw [alookup_aset_self]
      rw [alookup_aset_ne _ _ _ _ (fun hh => hkf hh.symm)]
      simp only [Option.isSome_some, true_iff]
      exact (wc.domQ k).mp (by simp [h])
    · by_cases hjf : j = .vint s.next_id
      · rw [hjf]
        rw [alookup_aset_ne _ _ _ _ hkf]
        rw [alookup_aset_self, alookup_aset_self]
        simp
      · rw [alookup_aset_ne _ _ _ _ (fun hh => hjk hh.symm)]
        rw [alookup_aset_ne _ _ _ _ (fun hh => hjf hh.symm)]
        rw [alookup_aset_ne _ _ _ _ (fun hh => hjf hh.symm)]
        exact wc.domQ j
  · -- pid
    exact UnionFind.add_pid _ _ wc.pid
  · -- keys
    intro j hj
    by_cases hjk : j = k
    · rw [hjk]
      exact keyOK_mono (Nat.le_succ _) _ (wc.keys k (by simp [h]))
    · rw [alookup_aset_ne _ _ _ _ (fun hh => hjk hh.symm)] at hj
      by_cases hjf : j = .vint s.next_id
      · rw [hjf]
        simp [keyOK]
      · rw [alookup_aset_ne _ _ _ _ (fun hh => hjf hh.symm)] at hj
        exact keyOK_mono (Nat.le_succ _) _ (wc.keys j hj)
  · -- recOK
    intro j nd0 hj
    by_cases hjk : j = k
    · rw [hjk] at hj
      rw [alookup_aset_self] at hj
      injection hj with hj
      subst hj
      obtain ⟨hl, ha, hr, _⟩ := wr.recOK k nd h
      refine ⟨hl, ha, hr, .inr ⟨s.next_id, rfl, ?_⟩⟩
      rw [alookup_aset_ne _ _ _ _ hkf]
      rw [alookup_aset_self]
      simp
    · rw [alookup_aset_ne _ _ _ _ (fun hh => hjk hh.symm)] at hj
      by_cases hjf : j = .vint s.next_id
      · rw [hjf] at hj
        rw [alookup_aset_self] at hj
        injection hj with hj
        subst hj
        exact ⟨rfl, rfl, rfl, .inl rfl⟩
      · rw [alookup_aset_ne _ _ _ _ (fun hh => hjf hh.symm)] at hj
        obtain ⟨hl, ha, hr, htau⟩ := wr.recOK j nd0 hj
        refine ⟨hl, ha, hr, ?_⟩
        rcases htau with htau | ⟨i, hi, hmem⟩
        · exact .inl htau
        · refine .inr ⟨i, hi, ?_⟩
          by_cases hik : (PyVal.vint i) = k
          · rw [hik, alookup_aset_self]
            simp
          · rw [alookup_aset_ne _ _ _ _ (fun hh => hik hh.symm)]
            by_cases hif : (PyVal.vint i) = .vint s.next_id
            · rw [hif, alookup_aset_self]
              simp
            · rw [alookup_aset_ne _ _ _ _ (fun hh => hif hh.symm)]
              exact hmem
  · -- pendOK
    intro j ps hj hne
    by_cases hjf : j = .vint s.next_id
    · rw [hjf] at hj
      rw [alookup_aset_self] at hj
      injection hj with hj
      exact absurd hj.symm hne
    · rw [alookup_aset_ne _ _ _ _ (fun hh => hjf hh.symm)] at hj
      obtain ⟨hvint, nd0, hnd0, hbot⟩ := wp.pendOK j ps hj hne
      have hjk : j ≠ k := fun hjk => hne (hpe ps (hjk ▸ hj))
      refine ⟨hvint, nd0, ?_, hbot⟩
      rw [alookup_aset_ne _ _ _ _ (fun hh => hjk hh.symm)]
      rw [alookup_aset_ne _ _ _ _ (fun hh => hjf hh.symm)]
      exact hnd0

/-- Bundled specification of a successful `get_tau` on a key whose pending
set is empty (which is the case at every call site a completed dispatch can
reach): invariants are preserved, the returned ID is a minted cell present in
the arena, and the rest of the arena and the parent map are untouched. -/
theorem get_tau_WF {s : AState} (w : WF s) {k t : PyVal} {nd' : TypeNode} {s' : AState}
    (hpe : ∀ ps, alookup s.pending k = some ps → ps = [])
    (h : get_tau_at k s = .ok (t, nd', s')) :
    WF s'
    ∧ (∃ i, t = .vint i)
    ∧ alookup s'.nodes k = some nd'
    ∧ nd'.tau = t
    ∧ (∃ nd0, alookup s.nodes k = some nd0 ∧ nd'.lam = nd0.lam)
    ∧ (alookup s'.nodes t).isSome
    ∧ s.next_id ≤ s'.next_id
    ∧ (∀ j nd0, alookup s.nodes j = some nd0 → j ≠ k → alookup s'.nodes j = some nd0)
    ∧ (∀ j v, alookup s.uf.parent j = some v → alookup s'.uf.parent j = some v) := by
  cases hn : alookup s.nodes k with
  | none => simp [get_tau_at, hn] at h
  | some nd =>
    by_cases ht : nd.tau = .vnone
    · rw [get_tau_at_eq_unset hn ht] at h
      injection h with h
      injection h with h1 h
      injection h with h2 h3
      subst h1
      subst h2
      subst h3
      have hfresh : alookup s.nodes (.vint s.next_id) = none := w.1.fresh_not_mem
      have hkf : k ≠ .vint s.next_id := by
        intro hk
        rw [hk, hfresh] at hn
        cases hn
      refine ⟨WF_mintTau w hn ht hpe, ⟨s.next_id, rfl⟩, ?_, rfl, ⟨nd, rfl, rfl⟩, ?_, ?_, ?_, ?_⟩
      · simp only [mintTauState]
        exact alookup_aset_self _ _ _
      · simp only [mintTauState]
        rw [alookup_aset_ne _ _ _ _ hkf, alookup_aset_self]
        simp
      · simp only [mintTauState]
        exact Nat.le_succ _
      · intro j nd0 hj hjk
        simp only [mintTauState]
        rw [alookup_aset_ne _ _ _ _ (fun hh => hjk hh.symm)]
        have hjf : j ≠ .vint s.next_id := by
          intro hjf
          rw [hjf, hfresh] at hj
          cases hj
        rw [alookup_aset_ne _ _ _ _ (fun hh => hjf hh.symm)]
        exact hj
      · intro j v hj
        simp only [mintTauState]
        exact UnionFind.add_lookup_some _ _ hj
    · rw [get_tau_at_eq_set hn ht] at h
      injection h with h
      injection h with h1 h
      injection h with h2 h3
      subst h1
      subst h2
      subst h3
      obtain ⟨_, _, _, htau⟩ := w.2.1.recOK k nd hn
      rcases htau with htau | ⟨i, hi, hmem⟩
      · exact absurd htau ht
      · exact ⟨w, ⟨i, hi⟩, hn, rfl, ⟨nd, rfl, rfl⟩, by rw [hi]; exact hmem, le_refl _,
          fun j nd0 hj _ => hj, fun j v hj => hj⟩

/-- Invariant preservation for a completed `cjoin` whose target is a minted
cell: only the pending map changes. -/
theorem WF_cjoin {s s' : AState} (w : WF s) {e1 e2 : PyVal} (hv : ∃ i, e2 = .vint i)
    (h : cjoin e1 e2 s = .ok s') :
    WF s' ∧ s'.nodes = s.nodes ∧ s'.uf = s.uf ∧ s'.next_id = s.next_id := by
  obtain ⟨t2, ps, hn, hb, hp, hs⟩ := cjoin_ok_inv s (WF_nodes_vnone w.1) e1 e2 s' h
  subst hs
  obtain ⟨wc, wr, wp⟩ := w
  refine ⟨⟨⟨wc.domP, ?_, wc.pid, wc.keys⟩, ⟨wr.recOK⟩, ⟨?_⟩⟩, rfl, rfl, rfl⟩
  · intro j
    by_cases hj : j = e2
    · rw [hj]
      simp only [alookup_aset_self]
      simp only [Option.isSome_some, iff_true]
      simp [hn]
    · rw [alookup_aset_ne _ _ _ _ (fun hh => hj hh.symm)]
      exact wc.domQ j
  · intro j qs hj hne
    by_cases hje : j = e2
    · rw [hje]
      exact ⟨hv, t2, hn, hb⟩
    · rw [alookup_aset_ne _ _ _ _ (fun hh => hje hh.symm)] at hj
      exact wp.pendOK j qs hj hne

/-- Invariant preservation for a completed `settype` whose source fields
satisfy the record invariant. -/
theorem WF_settype {s s' : AState} (w : WF s) {e : PyVal} {t : TypeNode}
    (htl : t.lam = .vnone) (hta : t.lam_args = []) (htr : t.lam_rets = [])
    (htt : t.tau = .vnone ∨ ∃ i, t.tau = .vint i ∧ (alookup s.nodes (.vint i)).isSome)
    (h : settype e t s = .ok s') :
    WF s' ∧ s'.pending = s.pending ∧ s'.uf = s.uf ∧ s'.next_id = s.next_id
    ∧ alookup s'.pending e = some [] := by
  obtain ⟨nd, hn, hp, hs⟩ := settype_ok_inv s (WF_nodes_vnone w.1) e t s' h
  subst hs
  obtain ⟨wc, wr, wp⟩ := w
  refine ⟨⟨⟨?_, ?_, wc.pid, ?_⟩, ⟨?_⟩, ⟨?_⟩⟩, rfl, rfl, rfl, hp⟩
  · intro j
    by_cases hj : j = e
    · rw [hj]
      simp only [alookup_aset_self, Option.isSome_some, true_iff]
      exact (wc.domP e).mp (by simp [hn])
    · rw [alookup_aset_ne _ _ _ _ (fun hh => hj hh.symm)]
      exact wc.domP j
  · intro j
    by_cases hj : j = e
    · rw [hj]
      simp only [alookup_aset_self, Option.isSome_some, true_iff]
      exact (wc.domQ e).mp (by simp [hn])
    · rw [alookup_aset_ne _ _ _ _ (fun hh => hj hh.symm)]
      exact wc.domQ j
  · intro j hj
    by_cases hje : j = e
    · rw [hje]
      exact wc.keys e (by simp [hn])
    · rw [alookup_aset_ne _ _ _ _ (fun hh => hje hh.symm)] at hj
      exact wc.keys j hj
  · intro j nd0 hj
    by_cases hje : j = e
    · rw [hje] at hj
      rw [alookup_aset_self] at hj
      injection hj with hj
      subst hj
      refine ⟨htl, hta, htr, ?_⟩
      rcases htt with htt | ⟨i, hi, hmem⟩
      · exact .inl htt
      · refine .inr ⟨i, hi, ?_⟩
        by_cases hie : (PyVal.vint i) = e
        · rw [hie, alookup_aset_self]
          simp
        · rw [alookup_aset_ne _ _ _ _ (fun hh => hie hh.symm)]
          exact hmem
    · rw [alookup_aset_ne _ _ _ _ (fun hh => hje hh.symm)] at hj
      obtain ⟨hl, ha, hr, htau⟩ := wr.recOK j nd0 hj
      refine ⟨hl, ha, hr, ?_⟩
      rcases htau with htau | ⟨i, hi, hmem⟩
      · exact .inl htau
      · refine .inr ⟨i, hi, ?_⟩
        by_cases hie : (PyVal.vint i) = e
        · rw [hie, alookup_aset_self]
          simp
        · rw [alookup_aset_ne _ _ _ _ (fun hh => hie hh.symm)]
          exact hmem
  · intro j qs hj hne
    obtain ⟨hvint, nd0, hnd0, hbot⟩ := wp.pendOK j qs hj hne
    have hje : j ≠ e := by
      intro hje
      rw [hje, hp] at hj
      injection hj with hj
      exact hne hj.symm
    refine ⟨hvint, nd0, ?_, hbot⟩
    rw [alookup_aset_ne _ _ _ _ (fun hh => hje hh.symm)]
    exact hnd0

/-- In a well-formed state, pending sets of string-named keys are empty. -/
theorem pend_empty_vstr {s : AState} (w : WF s) (v : String) :
    ∀ ps, alookup s.pending (.vstr v) = some ps → ps = [] := by
  intro ps hp
  by_cases hne : ps = []
  · exact hne
  · obtain ⟨⟨i, hi⟩, _⟩ := w.2.2.pendOK _ ps hp hne
    simp at hi

/-- In a well-formed state, pending sets of keys with non-bottom records are
empty. -/
theorem pend_empty_nonbottom {s : AState} (w : WF s) {k : PyVal} {nd : TypeNode}
    (h : alookup s.nodes k = some nd) (hb : nd.is_bottom = false) :
    ∀ ps, alookup s.pending k = some ps → ps = [] := by
  intro ps hp
  by_cases hne : ps = []
  · exact hne
  · obtain ⟨_, nd0, hnd0, hbot⟩ := w.2.2.pendOK _ ps hp hne
    rw [h] at hnd0
    injection hnd0 with he
    rw [← he, hb] at hbot
    simp at hbot

/-- Specification of a completed assignment body (`handle_assign` and each
`handle_op` iteration): invariants are preserved, both variables' records get
a minted `tau`, and the parent map only grows. -/
theorem assignStep_WF {s s' : AState} (w : WF s) (x y : String)
    (h : assignStep (.vstr x) (.vstr y) s = .ok s') :
    WF s'
    ∧ (∃ ndx, alookup s'.nodes (.vstr x) = some ndx ∧ ∃ i, ndx.tau = .vint i)
    ∧ (∃ ndy, alookup s'.nodes (.vstr y) = some ndy ∧ ∃ i, ndy.tau = .vint i)
    ∧ (∀ j v, alookup s.uf.parent j = some v → alookup s'.uf.parent j = some v) := by
  cases hfx : s.uf.find (.vstr x) with
  | error e => simp [assignStep, hfx] at h
  | ok ecr_x =>
    obtain ⟨hex, hpx⟩ := s.uf.find_ok_pid w.1.pid hfx
    subst hex
    cases hgx : get_tau_at (.vstr x) s with
    | error e => simp [assignStep, hfx, hgx] at h
    | ok trip =>
      obtain ⟨tau1, ndx, s1⟩ := trip
      obtain ⟨w1, ⟨i1, hi1⟩, hnx1, htx1, ⟨nd0x, hnd0x, hlamx⟩, hmemt1, hnle1, hpres1, hparpres1⟩ :=
        get_tau_WF w (pend_empty_vstr w x) hgx
      cases hfy : s1.uf.find (.vstr y) with
      | error e => simp [assignStep, hfx, hgx, hfy] at h
      | ok ecr_y =>
        obtain ⟨hey, hpy⟩ := s1.uf.find_ok_pid w1.1.pid hfy
        subst hey
        cases hgy : get_tau_at (.vstr y) s1 with
        | error e => simp [assignStep, hfx, hgx, hfy, hgy] at h
        | ok trip2 =>
          obtain ⟨tau2, ndy, s2⟩ := trip2
          obtain ⟨w2, ⟨i2, hi2⟩, hny2, hty2, ⟨nd0y, hnd0y, hlamy⟩, hmemt2, hnle2, hpres2, hparpres2⟩ :=
            get_tau_WF w1 (pend_empty_vstr w1 y) hgy
          have hlx : ndx.lam = .vnone := by
            rw [hlamx]
            exact (w.2.1.recOK _ nd0x hnd0x).1
          have hly : ndy.lam = .vnone := by
            rw [hlamy]
            exact (w1.2.1.recOK _ nd0y hnd0y).1
          have hlam_eq : ¬ ndx.lam ≠ ndy.lam := by
            rw [hlx, hly]
            simp
          simp only [assignStep, hfx, hgx, hfy, hgy, hlam_eq, ite_false, if_neg] at h
          have hx_in_s2 : ∃ ndx2, alookup s2.nodes (.vstr x) = some ndx2 ∧ ∃ i, ndx2.tau = .vint i := by
            by_cases hxy : (PyVal.vstr x) = (PyVal.vstr y)
            · rw [hxy]
              exact ⟨ndy, hny2, i2, hty2 ▸ hi2⟩
            · exact ⟨ndx, hpres2 _ ndx hnx1 hxy, i1, htx1 ▸ hi1⟩
          by_cases htt : tau1 ≠ tau2
          · rw [if_pos htt] at h
            cases hc : cjoin tau1 tau2 s2 with
            | error e => rw [hc] at h; exact absurd h (by simp)
            | ok s3 =>
              rw [hc] at h
              simp at h
              subst h
              obtain ⟨w3, hn3, hu3, _⟩ := WF_cjoin w2 ⟨i2, hi2⟩ hc
              refine ⟨w3, ?_, ?_, ?_⟩
              · rw [hn3]
                exact hx_in_s2
              · rw [hn3]
                exact ⟨ndy, hny2, i2, hty2 ▸ hi2⟩
              · intro j v hj
                rw [hu3]
                exact hparpres2 j v (hparpres1 j v hj)
          · rw [if_neg htt] at h
            simp at h
            subst h
            refine ⟨w2, hx_in_s2, ⟨ndy, hny2, i2, hty2 ▸ hi2⟩, ?_⟩
            intro j v hj
            exact hparpres2 j v (hparpres1 j v hj)

/-- Invariant preservation for registering a key via `new_type`. -/
theorem WF_new_at {s : AState} (w : WF s) (k : PyVal) (hk : keyOK s.next_id k) :
    WF (new_type k s) := by
  obtain ⟨wc, wr, wp⟩ := w
  refine ⟨⟨?_, ?_, ?_, ?_⟩, ⟨?_⟩, ⟨?_⟩⟩ <;> simp only [new_type]
  · intro j
    by_cases hj : j = k
    · rw [hj, alookup_aset_self]
      simp only [Option.isSome_some, true_iff]
      rw [UnionFind.add_dom]
      simp
    · rw [alookup_aset_ne _ _ _ _ (fun hh => hj hh.symm)]
      rw [UnionFind.add_dom]
      simp only [hj, false_or]
      exact wc.domP j
  · intro j
    by_cases hj : j = k
    · rw [hj, alookup_aset_self, alookup_aset_self]
      simp
    · rw [alookup_aset_ne _ _ _ _ (fun hh => hj hh.symm)]
      rw [alookup_aset_ne _ _ _ _ (fun hh => hj hh.symm)]
      exact wc.domQ j
  · exact UnionFind.add_pid _ _ wc.pid
  · intro j hj
    by_cases hje : j = k
    · rw [hje]
      exact hk
    · rw [alookup_aset_ne _ _ _ _ (fun hh => hje hh.symm)] at hj
      exact wc.keys j hj
  · intro j nd0 hj
    by_cases hje : j = k
    · rw [hje] at hj
      rw [alookup_aset_self] at hj
      injection hj with hj
      subst hj
      exact ⟨rfl, rfl, rfl, .inl rfl⟩
    · rw [alookup_aset_ne _ _ _ _ (fun hh => hje hh.symm)] at hj
      obtain ⟨hl, ha, hr, htau⟩ := wr.recOK j nd0 hj
      refine ⟨hl, ha, hr, ?_⟩
      rcases htau with htau | ⟨i, hi, hmem⟩
      · exact .inl htau
      · refine .inr ⟨i, hi, ?_⟩
        by_cases hie : (PyVal.vint i) = k
        · rw [hie, alookup_aset_self]
          simp
        · rw [alookup_aset_ne _ _ _ _ (fun hh => hie hh.symm)]
          exact hmem
  · intro j ps hj hne
    by_cases hje : j = k
    · rw [hje] at hj
      rw [alookup_aset_self] at hj
      injection hj with hj
      exact absurd hj.symm hne
    · rw [alookup_aset_ne _ _ _ _ (fun hh => hje hh.symm)] at hj
      obtain ⟨hvint, nd0, hnd0, hbot⟩ := wp.pendOK j ps hj hne
      refine ⟨hvint, nd0, ?_, hbot⟩
      rw [alookup_aset_ne _ _ _ _ (fun hh => hje hh.symm)]
      exact hnd0

/-- Bumping the fresh-ID counter preserves the invariants. -/
theorem WF_bump {s : AState} (w : WF s) : WF { s with next_id := s.next_id + 1 } := by
  obtain ⟨wc, wr, wp⟩ := w
  exact ⟨⟨wc.domP, wc.domQ, wc.pid,
      fun k hk => keyOK_mono (Nat.le_succ _) k (wc.keys k hk)⟩,
    ⟨wr.recOK⟩, ⟨wp.pendOK⟩⟩

/-- `fresh_type` preserves the invariants. -/
theorem WF_fresh {s : AState} (w : WF s) : WF (fresh_type s).2 :=
  WF_new_at (WF_bump w) (.vint s.next_id) (by simp [keyOK])

/-- A completed `handle_op` preserves the invariants. -/
theorem handle_op_WF {x : String} : ∀ (ys : List String) {s s' : AState}, WF s →
    handle_op (.vstr x) (ys.map .vstr) s = .ok s' → WF s' := by
  intro ys
  induction ys with
  | nil =>
    intro s s' w h
    simp [handle_op] at h
    rw [← h]
    exact w
  | cons y rest ih =>
    intro s s' w h
    simp only [List.map] at h
    cases ha : assignStep (.vstr x) (.vstr y) s with
    | error e => simp [handle_op, ha] at h
    | ok s1 =>
      simp only [handle_op, ha] at h
      exact ih (assignStep_WF w x y ha).1 h

/-- `handle_addr_of` on registered variables never completes: the taus differ
(one is a minted `vint`, the other a variable name), so it calls `join`,
which always raises. -/
theorem handle_addr_of_no_ok {s s' : AState} (w : WF s) (x y : String)
    (h : handle_addr_of (.vstr x) (.vstr y) s = .ok s') : False := by
  cases hfx : s.uf.find (.vstr x) with
  | error e => simp [handle_addr_of, hfx] at h
  | ok ecr_x =>
    obtain ⟨hex, _⟩ := s.uf.find_ok_pid w.1.pid hfx
    subst hex
    cases hgx : get_tau_at (.vstr x) s with
    | error e => simp [handle_addr_of, hfx, hgx] at h
    | ok trip =>
      obtain ⟨tau1, ndx, s1⟩ := trip
      obtain ⟨w1, ⟨i1, hi1⟩, _⟩ := get_tau_WF w (pend_empty_vstr w x) hgx
      cases hfy : s1.uf.find (.vstr y) with
      | error e => simp [handle_addr_of, hfx, hgx, hfy] at h
      | ok ecr_y =>
        obtain ⟨hey, _⟩ := s1.uf.find_ok_pid w1.1.pid hfy
        subst hey
        have hne : tau1 ≠ PyVal.vstr y := by
          rw [hi1]
          simp
        obtain ⟨err, herr⟩ := join_errors s1 (WF_nodes_vnone w1.1) pyRecLimit tau1 (.vstr y)
        simp [handle_addr_of, hfx, hgx, hfy, hne, herr] at h

/-- A completed `handle_deref` preserves the invariants. -/
theorem handle_deref_WF {s s' : AState} (w : WF s) (x y : String)
    (h : handle_deref (.vstr x) (.vstr y) s = .ok s') : WF s' := by
  cases hfx : s.uf.find (.vstr x) with
  | error e => simp [handle_deref, hfx] at h
  | ok ecr_x =>
    obtain ⟨hex, _⟩ := s.uf.find_ok_pid w.1.pid hfx
    subst hex
    cases hgx : get_tau_at (.vstr x) s with
    | error e => simp [handle_deref, hfx, hgx] at h
    | ok trip =>
      obtain ⟨tau1, ndx, s1⟩ := trip
      obtain ⟨w1, ⟨i1, hi1⟩, hnx1, htx1, ⟨nd0x, hnd0x, hlamx⟩, hmemt1, _, hpres1, hparpres1⟩ :=
        get_tau_WF w (pend_empty_vstr w x) hgx
      cases hfy : s1.uf.find (.vstr y) with
      | error e => simp [handle_deref, hfx, hgx, hfy] at h
      | ok ecr_y =>
        obtain ⟨hey, _⟩ := s1.uf.find_ok_pid w1.1.pid hfy
        subst hey
        cases hgy : get_tau_at (.vstr y) s1 with
        | error e => simp [handle_deref, hfx, hgx, hfy, hgy] at h
        | ok trip2 =>
          obtain ⟨tau2, ndy, s2⟩ := trip2
          obtain ⟨w2, ⟨i2, hi2⟩, hny2, hty2, ⟨nd0y, hnd0y, hlamy⟩, hmemt2, _, hpres2, hparpres2⟩ :=
            get_tau_WF w1 (pend_empty_vstr w1 y) hgy
          obtain ⟨tt2, htt2⟩ := Option.isSome_iff_exists.mp hmemt2
          by_cases hbot : tt2.is_bottom = true
          · have hx2 : ∃ ndx2, alookup s2.nodes (.vstr x) = some ndx2 := by
              by_cases hxy : (PyVal.vstr x) = (PyVal.vstr y)
              · rw [hxy]
                exact ⟨ndy, hny2⟩
              · exact ⟨ndx, hpres2 _ ndx hnx1 hxy⟩
            obtain ⟨ndx2, hndx2⟩ := hx2
            cases hst : settype tau2 ndx2 s2 with
            | error e =>
              simp [handle_deref, hfx, hgx, hfy, hgy, htt2, hbot, hndx2, hst] at h
            | ok s3 =>
              obtain ⟨hl2, ha2, hr2, htau2x⟩ := w2.2.1.recOK _ ndx2 hndx2
              obtain ⟨w3, _⟩ := WF_settype w2 hl2 ha2 hr2 htau2x hst
              simp [handle_deref, hfx, hgx, hfy, hgy, htt2, hbot, hndx2, hst] at h
              rw [← h]
              exact w3
          · have hbf : tt2.is_bottom = false := by
              cases hB : tt2.is_bottom
              · rfl
              · exact absurd hB hbot
            cases hg3 : get_tau_at tau2 s2 with
            | error e =>
              simp [handle_deref, hfx, hgx, hfy, hgy, htt2, hbot, hg3] at h
            | ok trip3 =>
              obtain ⟨tau3, ndt, s3⟩ := trip3
              obtain ⟨w3, ⟨i3, hi3⟩, _⟩ :=
                get_tau_WF w2 (pend_empty_nonbottom w2 htt2 hbf) hg3
              have hlx : ndx.lam = .vnone := by
                rw [hlamx]
                exact (w.2.1.recOK _ nd0x hnd0x).1
              have hlt : tt2.lam = .vnone := (w2.2.1.recOK _ tt2 htt2).1
              have hlam_eq : ¬ ndx.lam ≠ tt2.lam := by
                rw [hlx, hlt]
                simp
              by_cases htt13 : tau1 ≠ tau3
              · cases hc : cjoin tau1 tau3 s3 with
                | error e =>
                  simp [handle_deref, hfx, hgx, hfy, hgy, htt2, hbot, hg3, htt13, hc,
                    hlam_eq] at h
                | ok s4 =>
                  obtain ⟨w4, _⟩ := WF_cjoin w3 ⟨i3, hi3⟩ hc
                  simp [handle_deref, hfx, hgx, hfy, hgy, htt2, hbot, hg3, htt13, hc,
                    hlam_eq] at h
                  rw [← h]
                  exact w4
              · simp [handle_deref, hfx, hgx, hfy, hgy, htt2, hbot, hg3, htt13,
                  hlam_eq] at h
                rw [← h]
                exact w3

/-- A completed `handle_allocate` preserves the invariants. -/
theorem handle_allocate_WF {s s' : AState} (w : WF s) (x : String)
    (h : handle_allocate (.vstr x) s = .ok s') : WF s' := by
  cases hfx : s.uf.find (.vstr x) with
  | error e => simp [handle_allocate, hfx] at h
  | ok ecr_x =>
    obtain ⟨hex, _⟩ := s.uf.find_ok_pid w.1.pid hfx
    subst hex
    cases hgx : get_tau_at (.vstr x) s with
    | error e => simp [handle_allocate, hfx, hgx] at h
    | ok trip =>
      obtain ⟨tau, ndx, s1⟩ := trip
      obtain ⟨w1, ⟨i1, hi1⟩, hnx1, htx1, _, hmemt1, _, hpres1, hparpres1⟩ :=
        get_tau_WF w (pend_empty_vstr w x) hgx
      obtain ⟨tt, htt⟩ := Option.isSome_iff_exists.mp hmemt1
      by_cases hbot : tt.is_bottom = true
      · have hm : make_ecr_type s1
            = (.vint s1.next_id, new_type (.vint s1.next_id) { s1 with next_id := s1.next_id + 1 }) :=
          rfl
        have hfr : alookup (new_type (.vint s1.next_id)
              { s1 with next_id := s1.next_id + 1 }).nodes (.vint s1.next_id)
            = some (bottomNode (.vint s1.next_id)) := by
          simp [new_type, bottomNode, alookup_aset_self]
        have w2 : WF (new_type (.vint s1.next_id) { s1 with next_id := s1.next_id + 1 }) :=
          WF_new_at (WF_bump w1) (.vint s1.next_id) (by simp [keyOK])
        cases hst : settype tau (bottomNode (.vint s1.next_id))
            (new_type (.vint s1.next_id) { s1 with next_id := s1.next_id + 1 }) with
        | error e =>
          simp [handle_allocate, hfx, hgx, htt, hbot, hm, hfr, hst] at h
        | ok s3 =>
          obtain ⟨w3, _⟩ := WF_settype w2 rfl rfl rfl (.inl rfl) hst
          simp [handle_allocate, hfx, hgx, htt, hbot, hm, hfr, hst] at h
          rw [← h]
          exact w3
      · simp [handle_allocate, hfx, hgx, htt, hbot] at h
        rw [← h]
        exact w1

/-- A completed `handle_store` preserves the invariants. -/
theorem handle_store_WF {s s' : AState} (w : WF s) (x y : String)
    (h : handle_store (.vstr x) (.vstr y) s = .ok s') : WF s' := by
  cases hfx : s.uf.find (.vstr x) with
  | error e => simp [handle_store, hfx] at h
  | ok ecr_x =>
    obtain ⟨hex, _⟩ := s.uf.find_ok_pid w.1.pid hfx
    subst hex
    cases hgx : get_tau_at (.vstr x) s with
    | error e => simp [handle_store, hfx, hgx] at h
    | ok trip =>
      obtain ⟨tau1, ndx, s1⟩ := trip
      obtain ⟨w1, ⟨i1, hi1⟩, hnx1, htx1, ⟨nd0x, hnd0x, hlamx⟩, hmemt1, _, hpres1, hparpres1⟩ :=
        get_tau_WF w (pend_empty_vstr w x) hgx
      cases hfy : s1.uf.find (.vstr y) with
      | error e => simp [handle_store, hfx, hgx, hfy] at h
      | ok ecr_y =>
        obtain ⟨hey, _⟩ := s1.uf.find_ok_pid w1.1.pid hfy
        subst hey
        cases hgy : get_tau_at (.vstr y) s1 with
        | error e => simp [handle_store, hfx, hgx, hfy, hgy] at h
        | ok trip2 =>
          obtain ⟨tau2, ndy, s2⟩ := trip2
          obtain ⟨w2, ⟨i2, hi2⟩, hny2, hty2, ⟨nd0y, hnd0y, hlamy⟩, hmemt2, _, hpres2, hparpres2⟩ :=
            get_tau_WF w1 (pend_empty_vstr w1 y) hgy
          have hmemt1' : (alookup s2.nodes tau1).isSome := by
            cases htau1m : alookup s1.nodes tau1 with
            | none =>
              rw [htau1m] at hmemt1
              simp at hmemt1
            | some nd1t =>
              by_cases h1y : tau1 = (PyVal.vstr y)
              · rw [h1y, hny2]
                simp
              · rw [hpres2 _ nd1t htau1m h1y]
                simp
          obtain ⟨tt1, htt1⟩ := Option.isSome_iff_exists.mp hmemt1'
          by_cases hbot : tt1.is_bottom = true
          · cases hst : settype tau1 ndy s2 with
            | error e =>
              simp [handle_store, hfx, hgx, hfy, hgy, htt1, hbot, hny2, hst] at h
            | ok s3 =>
              obtain ⟨hl2, ha2, hr2, htau2y⟩ := w2.2.1.recOK _ ndy hny2
              obtain ⟨w3, _⟩ := WF_settype w2 hl2 ha2 hr2 htau2y hst
              simp [handle_store, hfx, hgx, hfy, hgy, htt1, hbot, hny2, hst] at h
              rw [← h]
              exact w3
          · have hbf : tt1.is_bottom = false := by
              cases hB : tt1.is_bottom
              · rfl
              · exact absurd hB hbot
            cases hg3 : get_tau_at tau1 s2 with
            | error e =>
              simp [handle_store, hfx, hgx, hfy, hgy, htt1, hbot, hg3] at h
            | ok trip3 =>
              obtain ⟨tau3, ndt, s3⟩ := trip3
              obtain ⟨w3, ⟨i3, hi3⟩, _⟩ :=
                get_tau_WF w2 (pend_empty_nonbottom w2 htt1 hbf) hg3
              have hly : ndy.lam = .vnone := by
                rw [hlamy]
                exact (w1.2.1.recOK _ nd0y hnd0y).1
              have hlt : tt1.lam = .vnone := (w2.2.1.recOK _ tt1 htt1).1
              have hlam_eq : ¬ ndy.lam ≠ tt1.lam := by
                rw [hly, hlt]
                simp
              by_cases htt23 : tau2 ≠ tau3
              · cases hc : cjoin tau3 tau2 s3 with
                | error e =>
                  simp [handle_store, hfx, hgx, hfy, hgy, htt1, hbot, hg3, htt23, hc,
                    hlam_eq] at h
                | ok s4 =>
                  obtain ⟨w4, _⟩ := WF_cjoin w3 ⟨i2, hi2⟩ hc
                  simp [handle_store, hfx, hgx, hfy, hgy, htt1, hbot, hg3, htt23, hc,
                    hlam_eq] at h
                  rw [← h]
                  exact w4
              · simp [handle_store, hfx, hgx, hfy, hgy, htt1, hbot, hg3, htt23,
                  hlam_eq] at h
                rw [← h]
                exact w3

/-- A completed dispatch of any constraint preserves the invariants. -/
theorem dispatch_WF {s s' : AState} (w : WF s) (c : Constraint)
    (h : dispatch c s = .ok s') : WF s' := by
  unfold dispatch at h
  by_cases h1 : c.ctype = "assign"
  · rw [if_pos h1] at h
    simp only [handle_assign] at h
    exact (assignStep_WF w c.lhs c.rhs h).1
  rw [if_neg h1] at h
  by_cases h2 : c.ctype = "addr_of"
  · rw [if_pos h2] at h
    exact (handle_addr_of_no_ok w c.lhs c.rhs h).elim
  rw [if_neg h2] at h
  by_cases h3 : c.ctype = "deref"
  · rw [if_pos h3] at h
    exact handle_deref_WF w c.lhs c.rhs h
  rw [if_neg h3] at h
  by_cases h4 : c.ctype = "op"
  · rw [if_pos h4] at h
    exact handle_op_WF c.operand_variables w h
  rw [if_neg h4] at h
  by_cases h5 : c.ctype = "allocate"
  · rw [if_pos h5] at h
    exact handle_allocate_WF w c.lhs h
  rw [if_neg h5] at h
  by_cases h6 : c.ctype = "store"
  · rw [if_pos h6] at h
    exact handle_store_WF w c.lhs c.rhs h
  rw [if_neg h6] at h
  injection h with h
  rw [← h]
  exact w

/-- A completed run preserves the invariants. -/
theorem runConstraints_WF : ∀ (cs : List Constraint) {s s' : AState}, WF s →
    runConstraints cs s = .ok s' → WF s' := by
  intro cs
  induction cs with
  | nil =>
    intro s s' w h
    simp [runConstraints] at h
    rw [← h]
    exact w
  | cons c rest ih =>
    intro s s' w h
    cases hd : dispatch c s with
    | error e => simp [runConstraints, hd] at h
    | ok s1 =>
      simp only [runConstraints, hd] at h
      exact ih (dispatch_WF w c hd) h

/-- The pre-registered initial state is well-formed. -/
theorem WF_initState (vs : List String) : WF (initState vs) := by
  have h0 : WF (⟨⟨[]⟩, [], [], 0⟩ : AState) := by
    refine ⟨⟨?_, ?_, ?_, ?_⟩, ⟨?_⟩, ⟨?_⟩⟩
    · intro k
      simp [alookup]
    · intro k
      simp [alookup]
    · intro k v hv
      simp [alookup] at hv
    · intro k hk
      simp [alookup] at hk
    · intro k nd hk
      simp [alookup] at hk
    · intro k ps hk
      simp [alookup] at hk
  have hfold : ∀ (l : List String) (s : AState), WF s →
      WF (l.foldl (fun s v => new_type (.vstr v) s) s) := by
    intro l
    induction l with
    | nil =>
      intro s hs
      exact hs
    | cons v rest ih =>
      intro s hs
      exact ih _ (WF_new_at hs (.vstr v) trivial)
  exact hfold vs _ h0

/-! ### C4 -/

/-- C4: after a run of the dispatcher that completes (pre-registration of the
variables followed by every constraint being handled), every ID whose record
is non-bottom has an empty pending set.  Draining is vacuous in this code
base — any non-empty drain would call `join` and abort the run — so a
completed run can only ever leave empty pending sets behind non-bottom
records, which is what the invariant asks. -/
theorem pending_empty_on_nonbottom (vs : List String) (cs : List Constraint)
    (s' : AState) (k : PyVal) (nd : TypeNode)
    (hrun : runConstraints cs (initState vs) = .ok s')
    (hnd : alookup s'.nodes k = some nd) (hb : nd.is_bottom = false) :
    alookup s'.pending k = some [] := by
  have w' : WF s' := runConstraints_WF cs (WF_initState vs) hrun
  obtain ⟨ps, hps⟩ := Option.isSome_iff_exists.mp ((w'.1.domQ k).mp (by simp [hnd]))
  have he := pend_empty_nonbottom w' hnd hb ps hps
  rw [he] at hps
  exact hps

/-- The state after running `a := b` on the registered variables `a`, `b`. -/
def runStateAB : AState :=
  { uf := ⟨[(.vstr "a", .vstr "a"), (.vstr "b", .vstr "b"),
            (.vint 0, .vint 0), (.vint 1, .vint 1)]⟩
    nodes := [(.vstr "a", ⟨.vstr "a", .vint 0, .vnone, [], []⟩),
              (.vstr "b", ⟨.vstr "b", .vint 1, .vnone, [], []⟩),
              (.vint 0, bottomNode (.vint 0)), (.vint 1, bottomNode (.vint 1))]
    pending := [(.vstr "a", []), (.vstr "b", []), (.vint 0, []), (.vint 1, [.vint 0])]
    next_id := 2 }

/-- C4 witness: in the completed run of `a := b`, the non-bottom record of
`a` has an empty pending set. -/
theorem pending_empty_on_nonbottom_witness :
    alookup runStateAB.pending (.vstr "a") = some [] :=
  pending_empty_on_nonbottom ["a", "b"] [cAssignAB] runStateAB (.vstr "a")
    ⟨.vstr "a", .vint 0, .vnone, [], []⟩ (by rfl) (by rfl) (by rfl)

/-! ### C8 -/

/-- C8: a completed `handle_assign(x, y)` leaves the records of `find(x)` and
`find(y)` non-bottom on the tau axis: both hold a minted pointee cell
(`get_tau` mints a fresh one for each side whose `tau` was bottom), even when
neither variable carried any pointer information before. -/
theorem handle_assign_taus_set (s s' : AState) (x y : String) (w : WF s)
    (h : handle_assign (.vstr x) (.vstr y) s = .ok s') :
    (∃ ndx, alookup s'.nodes (.vstr x) = some ndx ∧ ∃ i, ndx.tau = .vint i)
    ∧ (∃ ndy, alookup s'.nodes (.vstr y) = some ndy ∧ ∃ i, ndy.tau = .vint i)
    ∧ s'.uf.find (.vstr x) = .ok (.vstr x)
    ∧ s'.uf.find (.vstr y) = .ok (.vstr y) := by
  simp only [handle_assign] at h
  obtain ⟨w', hx, hy, hpar⟩ := assignStep_WF w x y h
  refine ⟨hx, hy, ?_, ?_⟩
  · obtain ⟨ndx, hndx, _⟩ := hx
    exact w'.1.find_eq (by simp [hndx])
  · obtain ⟨ndy, hndy, _⟩ := hy
    exact w'.1.find_eq (by simp [hndy])

/-- C8 witness: running `a := b` from the freshly registered state mints
pointee cells for both `a` and `b`. -/
theorem handle_assign_taus_set_witness :
    (∃ ndx, alookup runStateAB.nodes (.vstr "a") = some ndx ∧ ∃ i, ndx.tau = .vint i)
    ∧ (∃ ndy, alookup runStateAB.nodes (.vstr "b") = some ndy ∧ ∃ i, ndy.tau = .vint i)
    ∧ runStateAB.uf.find (.vstr "a") = .ok (.vstr "a")
    ∧ runStateAB.uf.find (.vstr "b") = .ok (.vstr "b") :=
  handle_assign_taus_set (initState ["a", "b"]) runStateAB "a" "b"
    (WF_initState ["a", "b"]) (by rfl)

/-- C3 amended: joining two IDs whose records are both non-bottom never
raises `ArityMismatch` — no such error exists in the source and the arity
check is commented out inside `unify_lam`, which is itself never invoked
(`join` only calls `unify_tau`).  Instead, whatever the recursion budget and
whatever the lambda arities, the call fails first with a `KeyError` on the
`None` returned by `union`. -/
theorem join_nonbottom_keyerror (s : AState) (e1 e2 : PyVal) (t1 t2 : TypeNode)
    (fuel : Nat)
    (hp1 : alookup s.uf.parent e1 = some e1) (hp2 : alookup s.uf.parent e2 = some e2)
    (hnone : alookup s.nodes .vnone = none)
    (h1 : alookup s.nodes e1 = some t1) (hb1 : t1.is_bottom = false)
    (h2 : alookup s.nodes e2 = some t2) (hb2 : t2.is_bottom = false) :
    join (fuel + 1) e1 e2 s = .error (.keyError .vnone)
    ∧ PyErr.keyError .vnone ≠ PyErr.arityMismatch := by
  refine ⟨?_, by decide⟩
  have hf1 : s.uf.find e1 = .ok e1 := s.uf.find_self e1 hp1
  have hf2 : s.uf.find e2 = .ok e2 := s.uf.find_self e2 hp2
  by_cases he : e1 = e2
  · subst he
    have hu : s.uf.union e1 e1 = .ok (.vnone, s.uf) := by
      simp [UnionFind.union, hf1]
    simp [join, h1, hu, hb1, assign_type, hnone]
  · have hu : s.uf.union e1 e2 = .ok (.vnone, ⟨aset s.uf.parent e2 e1⟩) := by
      simp [UnionFind.union, hf1, hf2, he]
    simp [join, h1, h2, hu, hb1, assign_type, hnone]

/-- C3 amended witness: the two concrete lambda records of arities 2 and 1
give a `KeyError` on `None` at the standard recursion budget. -/
theorem join_nonbottom_keyerror_witness :
    join (999 + 1) (.vint 10) (.vint 11) lamArityState = .error (.keyError .vnone)
    ∧ PyErr.keyError .vnone ≠ PyErr.arityMismatch :=
  join_nonbottom_keyerror lamArityState (.vint 10) (.vint 11)
    ⟨.vint 10, .vnone, .vint 20, [.vint 1, .vint 2], [.vint 3]⟩
    ⟨.vint 11, .vnone, .vint 21, [.vint 4], [.vint 5]⟩
    999 (by rfl) (by rfl) (by rfl) (by rfl) (by rfl) (by rfl) (by rfl)

/-! ### C10: acyclicity of the parent map -/

/-- Iterating the parent mapping `n` times from `x` (`none` if a lookup
misses). -/
def parentIter (p : List (PyVal × PyVal)) : Nat → PyVal → Option PyVal
  | 0, x => some x
  | n + 1, x =>
    match alookup p x with
    | none => none
    | some y => parentIter p n y

/-- The chain of parent links from `x` reaches the self-parented item `r`. -/
def ReachesRoot (p : List (PyVal × PyVal)) (x r : PyVal) : Prop :=
  (∃ n, parentIter p n x = some r) ∧ alookup p r = some r

/-- Union-find states produced by a sequence of `add` and completed `union`
operations (a `union` whose `find`s raise does not produce a state). -/
inductive ReachableUF : UnionFind → Prop
  | init : ReachableUF ⟨[]⟩
  | add (uf : UnionFind) (x : PyVal) : ReachableUF uf → ReachableUF (uf.add x)
  | union (uf : UnionFind) (a b v : PyVal) (uf' : UnionFind) :
      ReachableUF uf → uf.union a b = .ok (v, uf') → ReachableUF uf'

theorem parentIter_root {p : List (PyVal × PyVal)} {r : PyVal}
    (h : alookup p r = some r) : ∀ n, parentIter p n r = some r := by
  intro n
  induction n with
  | zero => rfl
  | succ m ih => simp [parentIter, h, ih]

/-- A successful fuelled `find` exhibits a chain to a root. -/
theorem findFuel_reaches {uf : UnionFind} :
    ∀ (fuel : Nat) (x r : PyVal), uf.findFuel fuel x = .ok r →
      ReachesRoot uf.parent x r := by
  intro fuel
  induction fuel with
  | zero =>
    intro x r h
    simp [UnionFind.findFuel] at h
  | succ f ih =>
    intro x r h
    cases hx : alookup uf.parent x with
    | none => simp [UnionFind.findFuel, hx] at h
    | some y =>
      by_cases hxy : y = x
      · subst hxy
        simp [UnionFind.findFuel, hx] at h
        subst h
        exact ⟨⟨0, rfl⟩, hx⟩
      · simp [UnionFind.findFuel, hx, hxy] at h
        obtain ⟨⟨n, hn⟩, hroot⟩ := ih y r h
        exact ⟨⟨n + 1, by simp [parentIter, hx, hn]⟩, hroot⟩

/-- Conversely, a chain to a root yields a terminating `find` at some fuel. -/
theorem reaches_findFuel {uf : UnionFind} :
    ∀ (n : Nat) (x r : PyVal), parentIter uf.parent n x = some r →
      alookup uf.parent r = some r → ∃ fuel, uf.findFuel fuel x = .ok r := by
  intro n
  induction n with
  | zero =>
    intro x r h hroot
    simp [parentIter] at h
    subst h
    exact ⟨1, by simp [UnionFind.findFuel, hroot]⟩
  | succ m ih =>
    intro x r h hroot
    cases hx : alookup uf.parent x with
    | none => simp [parentIter, hx] at h
    | some y =>
      simp only [parentIter, hx] at h
      by_cases hxy : y = x
      · subst hxy
        have := parentIter_root hx m
        rw [this] at h
        injection h with h
        subst h
        exact ⟨1, by simp [UnionFind.findFuel, hx]⟩
      · obtain ⟨fuel, hf⟩ := ih y r h hroot
        exact ⟨fuel + 1, by simp [UnionFind.findFuel, hx, hxy, hf]⟩

/-- Lookup-preserving maps preserve chains. -/
theorem parentIter_mono {p q : List (PyVal × PyVal)}
    (hpq : ∀ k v, alookup p k = some v → alookup q k = some v) :
    ∀ (n : Nat) (x r : PyVal), parentIter p n x = some r → parentIter q n x = some r := by
  intro n
  induction n with
  | zero =>
    intro x r h
    exact h
  | succ m ih =>
    intro x r h
    cases hx : alookup p x with
    | none => simp [parentIter, hx] at h
    | some y =>
      simp only [parentIter, hx] at h
      simp [parentIter, hpq x y hx, ih y r h]

/-- Inversion of a completed `union`: both roots exist and the new state is
either unchanged or links the second root under the first. -/
theorem union_ok_roots {uf : UnionFind} {a b v : PyVal} {uf' : UnionFind}
    (h : uf.union a b = .ok (v, uf')) :
    ∃ ra rb, uf.find a = .ok ra ∧ uf.find b = .ok rb
      ∧ ((ra = rb ∧ uf' = uf) ∨ (ra ≠ rb ∧ uf' = ⟨aset uf.parent rb ra⟩)) := by
  cases ha : uf.find a with
  | error e => simp [UnionFind.union, ha] at h
  | ok ra =>
    cases hb : uf.find b with
    | error e => simp [UnionFind.union, ha, hb] at h
    | ok rb =>
      refine ⟨ra, rb, rfl, rfl, ?_⟩
      by_cases hr : ra = rb
      · simp [UnionFind.union, ha, hb, hr] at h
        exact .inl ⟨hr, h.2.symm⟩
      · simp [UnionFind.union, ha, hb, hr] at h
        exact .inr ⟨hr, h.2.symm⟩

/-- Chains that end at a root other than `rb` survive the link
`parent[rb] := ra`. -/
theorem chain_avoid_link {p : List (PyVal × PyVal)} {ra rb : PyVal}
    (hrb : alookup p rb = some rb) :
    ∀ (n : Nat) (x r : PyVal), parentIter p n x = some r → alookup p r = some r →
      r ≠ rb → parentIter (aset p rb ra) n x = some r := by
  intro n
  induction n with
  | zero =>
    intro x r h _ _
    exact h
  | succ m ih =>
    intro x r h hroot hne
    cases hx : alookup p x with
    | none => simp [parentIter, hx] at h
    | some y =>
      simp only [parentIter, hx] at h
      have hxrb : x ≠ rb := by
        intro hxrb
        subst hxrb
        rw [hrb] at hx
        injection hx with hx
        subst hx
        rw [parentIter_root hrb m] at h
        injection h with h
        exact hne h.symm
      have hx' : alookup (aset p rb ra) x = some y := by
        rw [alookup_aset_ne _ _ _ _ (fun hh => hxrb hh.symm)]
        exact hx
      simp [parentIter, hx', ih y r h hroot hne]

/-- Chains that end at `rb` are redirected to `ra` by the link. -/
theorem chain_through_link {p : List (PyVal × PyVal)} {ra rb : PyVal}
    (hrb : alookup p rb = some rb) :
    ∀ (n : Nat) (x : PyVal), parentIter p n x = some rb →
      ∃ m, parentIter (aset p rb ra) m x = some ra := by
  intro n
  induction n with
  | zero =>
    intro x h
    simp [parentIter] at h
    subst h
    exact ⟨1, by simp [parentIter, alookup_aset_self]⟩
  | succ m ih =>
    intro x h
    cases hx : alookup p x with
    | none => simp [parentIter, hx] at h
    | some y =>
      simp only [parentIter, hx] at h
      by_cases hxrb : x = rb
      · subst hxrb
        exact ⟨1, by simp [parentIter, alookup_aset_self]⟩
      · have hx' : alookup (aset p rb ra) x = some y := by
          rw [alookup_aset_ne _ _ _ _ (fun hh => hxrb hh.symm)]
          exact hx
        obtain ⟨m', hm'⟩ := ih y h
        exact ⟨m' + 1, by simp [parentIter, hx', hm']⟩

/-- C10: after any sequence of `add` and completed `union` operations, the
parent mapping is acyclic — the chain of parent links from every registered
item reaches an item that is its own parent — and `find` on that item
terminates (some finite recursion depth returns its root). -/
theorem uf_acyclic_find_terminates (uf : UnionFind) (hr : ReachableUF uf)
    (x : PyVal) (hx : (alookup uf.parent x).isSome = true) :
    ∃ r, ReachesRoot uf.parent x r ∧ ∃ fuel, uf.findFuel fuel x = .ok r := by
  have main : ∀ (u : UnionFind), ReachableUF u → ∀ y,
      (alookup u.parent y).isSome = true → ∃ r, ReachesRoot u.parent y r := by
    intro u hu
    induction hu with
    | init =>
      intro y hy
      simp [alookup] at hy
    | add uf0 z hu0 ih =>
      intro y hy
      cases hz : alookup uf0.parent y with
      | some w =>
        obtain ⟨r, ⟨⟨n, hn⟩, hroot⟩⟩ := ih y (by simp [hz])
        refine ⟨r, ⟨n, ?_⟩, ?_⟩
        · exact parentIter_mono (fun k v hv => uf0.add_lookup_some z hv) n y r hn
        · exact uf0.add_lookup_some z hroot
      | none =>
        rw [uf0.add_lookup_none z hz] at hy
        by_cases hzy : z = y
        · subst hzy
          have hself : alookup (uf0.add z).parent z = some z := by
            rw [uf0.add_lookup_none z hz]
            simp
          exact ⟨z, ⟨0, rfl⟩, hself⟩
        · simp [hzy] at hy
    | union uf0 a b v uf1 hu0 hun ih =>
      intro y hy
      obtain ⟨ra, rb, hfa, hfb, hcase⟩ := union_ok_roots hun
      obtain ⟨⟨na, hna⟩, hroota⟩ := findFuel_reaches _ a ra hfa
      obtain ⟨⟨nb, hnb⟩, hrootb⟩ := findFuel_reaches _ b rb hfb
      rcases hcase with ⟨heq, hsame⟩ | ⟨hne, hlink⟩
      · subst hsame
        exact ih y hy
      · subst hlink
        have hy0 : (alookup uf0.parent y).isSome = true := by
          cases hy0 : alookup uf0.parent y with
          | some w => simp
          | none =>
            exfalso
            by_cases hyrb : y = rb
            · subst hyrb
              rw [hrootb] at hy0
              cases hy0
            · rw [show (UnionFind.mk (aset uf0.parent rb ra)).parent
                    = aset uf0.parent rb ra from rfl] at hy
              rw [alookup_aset_ne _ _ _ _ (fun hh => hyrb hh.symm), hy0] at hy
              simp at hy
        obtain ⟨r, ⟨⟨n, hn⟩, hroot⟩⟩ := ih y hy0
        by_cases hrrb : r = rb
        · obtain ⟨m, hm⟩ := chain_through_link hrootb n y (hrrb ▸ hn)
          refine ⟨ra, ⟨m, hm⟩, ?_⟩
          rw [show (UnionFind.mk (aset uf0.parent rb ra)).parent
              = aset uf0.parent rb ra from rfl]
          rw [alookup_aset_ne _ _ _ _ (fun hh => hne hh.symm)]
          exact hroota
        · refine ⟨r, ⟨n, ?_⟩, ?_⟩
          · exact chain_avoid_link hrootb n y r hn hroot hrrb
          · rw [show (UnionFind.mk (aset uf0.parent rb ra)).parent
                = aset uf0.parent rb ra from rfl]
            rw [alookup_aset_ne _ _ _ _ (fun hh => hrrb hh.symm)]
            exact hroot
  obtain ⟨r, hre⟩ := main uf hr x hx
  obtain ⟨⟨n, hn⟩, hroot⟩ := hre
  obtain ⟨fuel, hf⟩ := reaches_findFuel n x r hn hroot
  exact ⟨r, ⟨⟨n, hn⟩, hroot⟩, fuel, hf⟩

/-- C10 witness: after `add(a); add(b); union(a, b)` the chain from `b`
reaches the root `a` and `find(b)` terminates with it. -/
theorem uf_acyclic_find_terminates_witness :
    ∃ r, ReachesRoot (UnionFind.mk [(.vstr "a", .vstr "a"), (.vstr "b", .vstr "a")]).parent
        (.vstr "b") r
      ∧ ∃ fuel, (UnionFind.mk [(.vstr "a", .vstr "a"), (.vstr "b", .vstr "a")]).findFuel
          fuel (.vstr "b") = .ok r :=
  uf_acyclic_find_terminates ⟨[(.vstr "a", .vstr "a"), (.vstr "b", .vstr "a")]⟩
    (ReachableUF.union (ufAB) (.vstr "a") (.vstr "b") .vnone _
      (ReachableUF.add _ (.vstr "b") (ReachableUF.add _ (.vstr "a") ReachableUF.init))
      (by rfl))
    (.vstr "b") (by rfl)
